import Mathlib

/-!
Shallow embedding of the KeePassXC `Merger` (src/core/Merger.cpp) together
with the parts of its collaborators (`Group`, `Entry`, `Database`,
`Metadata`, `CustomData`, `Clock`) that the merger consumes.  The
collaborators are not part of the given sources, so they are modelled from
the specification (each such definition says so in its doc comment); the
merger itself is translated line by line from `Merger.cpp`.

Conventions:
 * timestamps are naturals counting milliseconds (`QDateTime` in memory);
 * UUIDs are naturals (`QUuid`), `none` standing for the null uuid;
 * `QMap` keyed by timestamps is a sorted association list, so that
   iteration order (ascending keys) matches the source;
 * mutation is explicit state passing: every function that mutates the
   target database returns the new value of the mutated state.
-/

namespace KPXC

/-- Merge mode policy of a group (`Group::MergeMode`). -/
inductive MergeMode where
  | Default
  | Duplicate
  | KeepLocal
  | KeepRemote
  | Synchronize
deriving DecidableEq, Repr

/-- Modelled from the spec: `TimeInfo`, the five timestamps attached to
every entry and group (§3), milliseconds in memory. -/
structure TimeInfo where
  creationTime : Nat := 0
  lastModificationTime : Nat := 0
  lastAccessTime : Nat := 0
  expiryTime : Nat := 0
  locationChanged : Nat := 0
deriving DecidableEq, Repr

/-- Modelled from the spec: `Clock::serialized` truncates a timestamp to
whole seconds (§4.1), since the persistent format stores seconds. -/
def Clock.serialized (t : Nat) : Nat :=
  t / 1000 * 1000

/-- Three-way comparison of two timestamps ignoring milliseconds:
`compare(a, b, CompareItemIgnoreMilliseconds)` used by the merger.
Modelled from the spec: all ordering comparisons between a source and a
target timestamp use normalized values (§4.1). -/
def compareIgnoreMs (a b : Nat) : Ordering :=
  compare (Clock.serialized a) (Clock.serialized b)

/-- Modelled from the spec: the data of one revision of an entry — uuid,
title, arbitrary key/value fields and its `TimeInfo` (§3).  A history item
is exactly such a revision (it carries no parent group and no history of
its own). -/
structure EntryData where
  uuid : Nat
  title : String := ""
  fields : List (String × String) := []
  timeInfo : TimeInfo := {}
deriving DecidableEq, Repr

/-- Modelled from the spec: an `Entry` is its current revision plus an
ordered history chain of older revisions (§3). -/
structure Entry where
  data : EntryData
  history : List EntryData := []
deriving DecidableEq, Repr

def Entry.uuid (e : Entry) : Nat := e.data.uuid
def Entry.title (e : Entry) : String := e.data.title
def Entry.timeInfo (e : Entry) : TimeInfo := e.data.timeInfo

/-- `TimeInfo` with every timestamp truncated to seconds; used by
`equals(…, CompareItemIgnoreMilliseconds)`. -/
def TimeInfo.serialized (t : TimeInfo) : TimeInfo :=
  { creationTime := Clock.serialized t.creationTime
    lastModificationTime := Clock.serialized t.lastModificationTime
    lastAccessTime := Clock.serialized t.lastAccessTime
    expiryTime := Clock.serialized t.expiryTime
    locationChanged := Clock.serialized t.locationChanged }

/-- Modelled from the spec: `Entry::equals(other, CompareItemIgnoreMilliseconds)`
on history items — same uuid, title, fields, and timestamps equal after
truncation to seconds (§6).  History items carry no history and no
location, so only the data fields take part. -/
def EntryData.equalsIgnoreMs (a b : EntryData) : Bool :=
  a.uuid == b.uuid && a.title == b.title && a.fields == b.fields
    && a.timeInfo.serialized == b.timeInfo.serialized

/-- Modelled from the spec: the data block of a `Group` — uuid, name,
notes, icon reference (built-in number or custom-icon uuid), `TimeInfo`
and merge-mode policy (§3). -/
structure GroupData where
  uuid : Nat
  name : String := ""
  notes : String := ""
  iconNumber : Nat := 0
  iconUuid : Nat := 0
  timeInfo : TimeInfo := {}
  mergeMode : MergeMode := .Default
deriving DecidableEq, Repr

/-- Modelled from the spec: a `Group` is a node of the tree, holding its
data, an ordered list of entries and an ordered list of child groups (§3). -/
inductive Group where
  | node (dat : GroupData) (entries : List Entry) (children : List Group)

def Group.dat : Group → GroupData
  | .node d _ _ => d

def Group.entries : Group → List Entry
  | .node _ es _ => es

def Group.children : Group → List Group
  | .node _ _ cs => cs

def Group.uuid (g : Group) : Nat := g.dat.uuid
def Group.name (g : Group) : String := g.dat.name
def Group.timeInfo (g : Group) : TimeInfo := g.dat.timeInfo

/-- Tombstone: `DeletedObject`, a pair of uuid and deletion time (§3). -/
structure DeletedObject where
  uuid : Nat
  deletionTime : Nat
deriving DecidableEq, Repr

theorem Group.sizeOf_children_lt (g : Group) (c : Group) (h : c ∈ g.children) :
    sizeOf c < sizeOf g := by
  cases g with
  | node d es cs =>
    simp only [Group.children] at h
    have h1 : sizeOf c < sizeOf cs := List.sizeOf_lt_of_mem h
    simp only [Group.node.sizeOf_spec]
    omega

mutual
/-- All entries of the subtree rooted at `g`, the group's own entries
first, then the children's depth first.
Modelled from the spec: `Group::entriesRecursive` (§6). -/
def Group.entriesRecursive : Group → List Entry
  | .node _ es cs => es ++ Group.entriesRecursiveList cs
def Group.entriesRecursiveList : List Group → List Entry
  | [] => []
  | c :: cs => c.entriesRecursive ++ Group.entriesRecursiveList cs
end

mutual
/-- The group itself followed by all its descendant groups, depth first.
Modelled from the spec: `Group::groupsRecursive(true)` (§6). -/
def Group.groupsRecursive : Group → List Group
  | g@(.node _ _ cs) => g :: Group.groupsRecursiveList cs
def Group.groupsRecursiveList : List Group → List Group
  | [] => []
  | c :: cs => c.groupsRecursive ++ Group.groupsRecursiveList cs
end

/-- Strict descendant groups, `Group::groupsRecursive(false)`. -/
def Group.strictDescendants (g : Group) : List Group :=
  Group.groupsRecursiveList g.children

/-- Modelled from the spec: `Group::findEntryByUuid` searches the whole
subtree for a live entry with the given uuid (§6). -/
def Group.findEntryByUuid (g : Group) (u : Nat) : Option Entry :=
  g.entriesRecursive.find? (fun e => e.uuid == u)

/-- Modelled from the spec: `Group::findGroupByUuid` searches the group
itself and the whole subtree for a group with the given uuid (§6). -/
def Group.findGroupByUuid (g : Group) (u : Nat) : Option Group :=
  g.groupsRecursive.find? (fun c => c.uuid == u)

/-- Uuid of the group that directly holds the entry `u`, if any. -/
def Group.parentGroupOfEntry (g : Group) (u : Nat) : Option Group :=
  g.groupsRecursive.find? (fun c => c.entries.any (fun e => e.uuid == u))

/-- Uuid of the parent group of group `u` (none for the root). -/
def Group.parentGroupOfGroup (g : Group) (u : Nat) : Option Group :=
  g.groupsRecursive.find? (fun c => c.children.any (fun s => s.uuid == u))

mutual
/-- Remove every entry with uuid `u` from the whole tree (the live trees
keep uuids unique, so this removes the one matching entry). -/
def Group.removeEntry : Group → Nat → Group
  | .node d es cs, u => .node d (es.filter (fun e => e.uuid != u)) (Group.removeEntryList cs u)
def Group.removeEntryList : List Group → Nat → List Group
  | [], _ => []
  | c :: cs, u => c.removeEntry u :: Group.removeEntryList cs u
end

mutual
/-- Append entry `e` to the entry list of the group with uuid `gu`. -/
def Group.addEntryTo : Group → Nat → Entry → Group
  | .node d es cs, gu, e =>
    if d.uuid == gu then .node d (es ++ [e]) cs
    else .node d es (Group.addEntryToList cs gu e)
def Group.addEntryToList : List Group → Nat → Entry → List Group
  | [], _, _ => []
  | c :: cs, gu, e => c.addEntryTo gu e :: Group.addEntryToList cs gu e
end

mutual
/-- Replace (in place) the entry with uuid `u` by `e` wherever it lives. -/
def Group.replaceEntry : Group → Nat → Entry → Group
  | .node d es cs, u, e =>
    .node d (es.map (fun o => if o.uuid == u then e else o)) (Group.replaceEntryList cs u e)
def Group.replaceEntryList : List Group → Nat → Entry → List Group
  | [], _, _ => []
  | c :: cs, u, e => c.replaceEntry u e :: Group.replaceEntryList cs u e
end

mutual
/-- Remove every child group with uuid `u` (with its whole subtree) from
the tree.  The root itself is never removed: the database keeps its root
group. -/
def Group.removeGroup : Group → Nat → Group
  | .node d es cs, u => .node d es (Group.removeGroupList cs u)
def Group.removeGroupList : List Group → Nat → List Group
  | [], _ => []
  | c :: cs, u =>
    if c.uuid == u then Group.removeGroupList cs u
    else c.removeGroup u :: Group.removeGroupList cs u
end

mutual
/-- Append child group `newChild` to the children of the group with uuid
`gu`. -/
def Group.addChildTo : Group → Nat → Group → Group
  | .node d es cs, gu, newChild =>
    if d.uuid == gu then .node d es (cs ++ [newChild])
    else .node d es (Group.addChildToList cs gu newChild)
def Group.addChildToList : List Group → Nat → Group → List Group
  | [], _, _ => []
  | c :: cs, gu, newChild => c.addChildTo gu newChild :: Group.addChildToList cs gu newChild
end

mutual
/-- Rewrite the data block of the group with uuid `u`. -/
def Group.updateGroupData : Group → Nat → (GroupData → GroupData) → Group
  | .node d es cs, u, f =>
    .node (if d.uuid == u then f d else d) es (Group.updateGroupDataList cs u f)
def Group.updateGroupDataList : List Group → Nat → (GroupData → GroupData) → List Group
  | [], _, _ => []
  | c :: cs, u, f => c.updateGroupData u f :: Group.updateGroupDataList cs u f
end

mutual
/-- Modelled from the spec: `Group::fullPath` — the names from the root
down to the group, each preceded by a slash (§6, change records carry the
group full-path). -/
def Group.fullPathAux : Group → Nat → String → Option String
  | .node d _ cs, u, acc =>
    let here := acc ++ "/" ++ d.name
    if d.uuid == u then some here
    else Group.fullPathAuxList cs u here
def Group.fullPathAuxList : List Group → Nat → String → Option String
  | [], _, _ => none
  | c :: cs, u, here =>
    match c.fullPathAux u here with
    | some s => some s
    | none => Group.fullPathAuxList cs u here
end

def Group.fullPathOf (root : Group) (u : Nat) : String :=
  (root.fullPathAux u "").getD ""

/-- Full path of the group that directly holds entry `u` (empty when the
entry is attached to no group, the C++ null-parent case). -/
def Group.entryGroupPath (root : Group) (u : Nat) : String :=
  match root.parentGroupOfEntry u with
  | some p => root.fullPathOf p.uuid
  | none => ""

/-- `Merger::Change::Type`. -/
inductive ChangeType where
  | Added
  | Modified
  | Moved
  | Deleted
  | Unspecified
deriving DecidableEq, Repr

/-- `Merger::Change`: type tag, group full-path, title (entries only),
uuid (`none` is the null `QUuid`) and the human readable detail string.
Two change records compare equal iff all five fields match
(`operator==` in Merger.cpp). -/
structure Change where
  type : ChangeType := .Unspecified
  group : String := ""
  title : String := ""
  uuid : Option Nat := none
  details : String := ""
deriving DecidableEq, Repr

/-- `Change(Type, const Entry&, details)`: takes the entry's title, uuid
and — when the entry has a parent group — that group's full path.  The
path is read off the tree `root` the entry lives in. -/
def Change.ofEntry (root : Group) (type : ChangeType) (e : Entry) (details : String) : Change :=
  { type := type, group := root.entryGroupPath e.uuid, title := e.title
    uuid := some e.uuid, details := details }

/-- `Change(Type, const Group&, details)`: takes the group's full path and
uuid; the title stays empty. -/
def Change.ofGroup (root : Group) (type : ChangeType) (u : Nat) (details : String) : Change :=
  { type := type, group := root.fullPathOf u, uuid := some u, details := details }

/-!  A `QMap<QDateTime, Entry*>` keyed by normalized modification times:
modelled as an association list sorted by key ascending, so that value
iteration (`merged.values()`, `for (… : merged)`) is in ascending key
order exactly as in Qt. -/

/-- Lookup in the sorted association list (`QMap::contains` / `operator[]`). -/
def mfind (m : List (Nat × EntryData)) (k : Nat) : Option EntryData :=
  (m.find? (fun p => p.1 == k)).map (·.2)

/-- Insert, replacing any previous value at the key and keeping the list
sorted by key ascending (`QMap::operator[]=`). -/
def minsert (m : List (Nat × EntryData)) (k : Nat) (v : EntryData) :
    List (Nat × EntryData) :=
  match m with
  | [] => [(k, v)]
  | (k', v') :: rest =>
    if k < k' then (k, v) :: (k', v') :: rest
    else if k == k' then (k, v) :: rest
    else (k', v') :: minsert rest k v

/-- Remove the value at the key (`QMap::take`, result value unused). -/
def mremove (m : List (Nat × EntryData)) (k : Nat) : List (Nat × EntryData) :=
  m.filter (fun p => p.1 != k)

/-- The key a history item is filed under: its modification time
normalized to seconds (Merger.cpp:409/422). -/
def histKey (h : EntryData) : Nat :=
  Clock.serialized h.timeInfo.lastModificationTime

/-- `QList::value(i)` with an `int` index: out-of-range (including
negative) indices yield the default-constructed value, here `none`
(Merger.cpp:471-472 relies on this). -/
def listValueAt (l : List EntryData) (i : Int) : Option EntryData :=
  if i < 0 then none else l.get? i.toNat

/-- The history union of Merger.cpp:407-438: key every history item of
both chains by normalized modification time; on a key collision the
target's item stays, unless the source side's current revision is
strictly newer (normalized), in which case the source's item wins. -/
def historyUnionMap (sourceEntry targetEntry : Entry) : List (Nat × EntryData) :=
  let comparison := compareIgnoreMs sourceEntry.timeInfo.lastModificationTime
      targetEntry.timeInfo.lastModificationTime
  let preferRemote := comparison == .gt
  let m1 := targetEntry.history.foldl (fun m h => minsert m (histKey h) h) []
  sourceEntry.history.foldl (fun m h =>
      let m := if preferRemote && (mfind m (histKey h)).isSome then mremove m (histKey h) else m
      if (mfind m (histKey h)).isSome then m else minsert m (histKey h) h) m1

/-- The merged history map of Merger.cpp:407-466: the history union, after
which the current revision of the strictly older (normalized) side is
filed under its own normalized modification time when that key is still
free. -/
def mergedHistoryMap (sourceEntry targetEntry : Entry) : List (Nat × EntryData) :=
  let comparison := compareIgnoreMs sourceEntry.timeInfo.lastModificationTime
      targetEntry.timeInfo.lastModificationTime
  let preferLocal := comparison == .lt
  let preferRemote := comparison == .gt
  let m2 := historyUnionMap sourceEntry targetEntry
  let targetModificationTime := Clock.serialized targetEntry.timeInfo.lastModificationTime
  let sourceModificationTime := Clock.serialized sourceEntry.timeInfo.lastModificationTime
  if targetModificationTime < sourceModificationTime then
    let m2 := if preferLocal && (mfind m2 targetModificationTime).isSome then
        mremove m2 targetModificationTime else m2
    if (mfind m2 targetModificationTime).isSome then m2
    else minsert m2 targetModificationTime targetEntry.data
  else if targetModificationTime > sourceModificationTime then
    let m2 := if preferRemote && !(mfind m2 sourceModificationTime).isSome then
        mremove m2 sourceModificationTime else m2
    if (mfind m2 sourceModificationTime).isSome then m2
    else minsert m2 sourceModificationTime sourceEntry.data
  else m2

/-- One probe of the `changed` detection loop of Merger.cpp:470-481: read
both chains at index `count - i`; the probe passes when both reads are
null or both items are equal ignoring milliseconds. -/
def probeOk (oldItems newItems : List EntryData) (i : Nat) : Bool :=
  match listValueAt oldItems ((oldItems.length : Int) - i),
        listValueAt newItems ((newItems.length : Int) - i) with
  | none, none => true
  | some o, some n => o.equalsIgnoreMs n
  | _, _ => false

/-- The `changed` detection loop of Merger.cpp:468-481: some probe
`i < maxItems` fails. -/
def historyChanged (oldItems newItems : List EntryData) (maxItems : Nat) : Bool :=
  (List.range maxItems).any (fun i => !probeOk oldItems newItems i)

/-- Keep the newest `maxItems` items of an ascending chain.
Modelled from the spec: `Entry::truncateHistory` drops oldest first until
at most the configured maximum remains (§4.4 step 7; the size-based limit
of the real store is not part of the merge algorithm). -/
def truncateHistory (l : List EntryData) (maxItems : Nat) : List EntryData :=
  l.drop (l.length - maxItems)

/-- `Merger::mergeHistory` (Merger.cpp:393-503): returns whether the
target's history changed together with the new target entry.  When the
probe loop sees no difference the candidate chain is discarded and the
target is untouched; otherwise the merged chain replaces the target's
history and is truncated to `maxItems`. -/
def mergeHistory (sourceEntry targetEntry : Entry) (maxItems : Nat) : Bool × Entry :=
  let updatedHistoryItems := (mergedHistoryMap sourceEntry targetEntry).map (·.2)
  if !historyChanged targetEntry.history updatedHistoryItems maxItems then
    (false, targetEntry)
  else
    (true, { targetEntry with history := truncateHistory updatedHistoryItems maxItems })

/-- `Merger::resolveGroupConflict` (Merger.cpp:227-252): when the target
group's raw last-modification time is strictly older than the source's,
copy name, notes, icon (custom-icon uuid when the source's icon number is
zero, the numeric id otherwise) and expiry time from the source, and force
the target's last-modification time to the source's raw value.  `srcPath`
is the source child group's full path used for the change record. -/
def resolveGroupConflict (sourceChildGroup : GroupData) (targetChildGroup : GroupData)
    (srcPath : String) : GroupData × List Change :=
  let timeExisting := targetChildGroup.timeInfo.lastModificationTime
  let timeOther := sourceChildGroup.timeInfo.lastModificationTime
  if timeExisting < timeOther then
    let icon : GroupData → GroupData := fun d =>
      if sourceChildGroup.iconNumber == 0 then
        { d with iconNumber := 0, iconUuid := sourceChildGroup.iconUuid }
      else
        { d with iconNumber := sourceChildGroup.iconNumber, iconUuid := 0 }
    let d := icon { targetChildGroup with
        name := sourceChildGroup.name
        notes := sourceChildGroup.notes }
    let d := { d with timeInfo := { d.timeInfo with
        expiryTime := sourceChildGroup.timeInfo.expiryTime
        lastModificationTime := timeOther } }
    (d, [{ type := .Modified, group := srcPath, uuid := some sourceChildGroup.uuid
           details := "Overwriting group properties" }])
  else
    (targetChildGroup, [])

/-- Modelled from the spec: the `CustomData` key-value store — an
insertion-ordered map with per-key protected flags and the distinguished
key `LastModified` carrying a timestamp (§3).  The store's automatic
re-stamping of `LastModified` on writes is managed by the store itself and
is outside the merge algorithm, so `set`/`remove` here touch only the
written key. -/
structure CustomData where
  kv : List (String × String) := []
  protectedKeys : List String := []
deriving DecidableEq, Repr

def CustomData.lastModifiedKey : String := "LastModified"

/-- Modelled from the spec: the timestamp stored as the value of the
`LastModified` key, decoded back to a time; a non-numeric or empty value
is the invalid `QDateTime`. -/
def parseTimestampAux : List Char → Nat → Option Nat
  | [], acc => some acc
  | c :: cs, acc =>
    if 48 ≤ c.toNat ∧ c.toNat ≤ 57 then parseTimestampAux cs (acc * 10 + (c.toNat - 48))
    else none

def parseTimestamp (s : String) : Option Nat :=
  match s.data with
  | [] => none
  | cs => parseTimestampAux cs 0

def CustomData.value (cd : CustomData) (k : String) : String :=
  ((cd.kv.find? (fun p => p.1 == k)).map (·.2)).getD ""

def CustomData.containsKey (cd : CustomData) (k : String) : Bool :=
  (cd.kv.find? (fun p => p.1 == k)).isSome

def CustomData.keys (cd : CustomData) : List String :=
  cd.kv.map (·.1)

def CustomData.isProtected (cd : CustomData) (k : String) : Bool :=
  cd.protectedKeys.contains k

/-- `CustomData::lastModified()`: the timestamp stored under
`LastModified`, `none` when the key is missing or its value does not parse
(the invalid `QDateTime`). -/
def CustomData.lastModified (cd : CustomData) : Option Nat :=
  (cd.kv.find? (fun p => p.1 == CustomData.lastModifiedKey)).bind (fun p => parseTimestamp p.2)

def CustomData.set (cd : CustomData) (k v : String) : CustomData :=
  if cd.containsKey k then
    { cd with kv := cd.kv.map (fun p => if p.1 == k then (k, v) else p) }
  else
    { cd with kv := cd.kv ++ [(k, v)] }

def CustomData.removeKey (cd : CustomData) (k : String) : CustomData :=
  { cd with kv := cd.kv.filter (fun p => p.1 != k) }

/-- Modelled from the spec: `Metadata` — custom icons as an
insertion-ordered uuid→blob map, the custom-data store and the history
size limit consumed by the merger (§3, §6). -/
structure Metadata where
  customIconsOrder : List Nat := []
  customIcons : List (Nat × Nat) := []
  customData : CustomData := {}
  historyMaxItems : Nat := 10
deriving DecidableEq, Repr

def Metadata.hasCustomIcon (m : Metadata) (u : Nat) : Bool :=
  (m.customIcons.find? (fun p => p.1 == u)).isSome

def Metadata.customIcon (m : Metadata) (u : Nat) : Nat :=
  ((m.customIcons.find? (fun p => p.1 == u)).map (·.2)).getD 0

def Metadata.addCustomIcon (m : Metadata) (u blob : Nat) : Metadata :=
  { m with customIconsOrder := m.customIconsOrder ++ [u]
           customIcons := m.customIcons ++ [(u, blob)] }

/-- The condition of Merger.cpp:612-614: the target lacks the
`LastModified` key, or both timestamps are valid and the target's is
strictly older. -/
def customDataMergeCondition (sourceCD targetCD : CustomData) : Bool :=
  !targetCD.containsKey CustomData.lastModifiedKey
    || (match targetCD.lastModified, sourceCD.lastModified with
        | some t, some s => t < s
        | _, _ => false)

/-- One source icon of the icon loop of Merger.cpp:602-607: insert it
with the source's blob when the target lacks it.  The icon detail string
abbreviates the hex-formatted uuid of the source. -/
def iconStep (sourceMetadata : Metadata) (st : Metadata × List Change) (iconUuid : Nat) :
    Metadata × List Change :=
  if !st.1.hasCustomIcon iconUuid then
    (st.1.addCustomIcon iconUuid (sourceMetadata.customIcon iconUuid),
     st.2 ++ [{ details := "Adding missing icon " ++ toString iconUuid }])
  else st

/-- One target key of the removal loop of Merger.cpp:619-626: drop it
when the source neither holds nor protects it. -/
def removeKeyStep (sourceMetadata : Metadata) (st : CustomData × List Change) (key : String) :
    CustomData × List Change :=
  if !sourceMetadata.customData.containsKey key
      && !sourceMetadata.customData.isProtected key then
    (st.1.removeKey key,
     st.2 ++ [{ details := "Removed custom data " ++ key ++ " [" ++ st.1.value key ++ "]" }])
  else st

/-- One source key of the transfer loop of Merger.cpp:629-642: skip
`LastModified`, copy the source's value when it differs. -/
def setKeyStep (sourceMetadata : Metadata) (st : CustomData × List Change) (key : String) :
    CustomData × List Change :=
  if key == CustomData.lastModifiedKey then st
  else if sourceMetadata.customData.value key != st.1.value key then
    (st.1.set key (sourceMetadata.customData.value key),
     st.2 ++ [{ details := "Adding custom data " ++ key ++ " ["
                ++ sourceMetadata.customData.value key ++ "]" }])
  else st

/-- `Merger::mergeMetadata` (Merger.cpp:593-646): union the source's
custom icons into the target in source insertion order, then — when the
source's custom data is newer at dictionary level — delete every target
key the source neither holds nor protects and copy over every differing
source value except `LastModified`. -/
def mergeMetadata (sourceMetadata targetMetadata : Metadata) : Metadata × List Change :=
  let (targetMetadata, changes) :=
    sourceMetadata.customIconsOrder.foldl (iconStep sourceMetadata) (targetMetadata, [])
  if customDataMergeCondition sourceMetadata.customData targetMetadata.customData then
    let (cd, changes) := targetMetadata.customData.keys.foldl
      (removeKeyStep sourceMetadata) (targetMetadata.customData, changes)
    let (cd, changes) := sourceMetadata.customData.keys.foldl
      (setKeyStep sourceMetadata) (cd, changes)
    ({ targetMetadata with customData := cd }, changes)
  else
    (targetMetadata, changes)

/-- The database: one root group, the deletion log and the metadata block
(§3). -/
structure Database where
  root : Group
  deletions : List DeletedObject := []
  meta : Metadata := {}

/-- The effective merge mode (Merger.cpp:389/508): the forced mode unless
it is `Default`, in which case the target group's configured mode. -/
def effectiveMode (forced : MergeMode) (targetGroup : Group) : MergeMode :=
  if forced == .Default then targetGroup.dat.mergeMode else forced

/-!  Deletion merger (Merger.cpp:505-591). -/

/-- Lookup in the uuid-keyed tombstone map (`QMap<QUuid, DeletedObject>`;
its iteration order is never used, so a plain association list serves). -/
def dfind (m : List (Nat × DeletedObject)) (u : Nat) : Option DeletedObject :=
  (m.find? (fun p => p.1 == u)).map (·.2)

def dreplace (m : List (Nat × DeletedObject)) (u : Nat) (d : DeletedObject) :
    List (Nat × DeletedObject) :=
  m.map (fun p => if p.1 == u then (u, d) else p)

/-- State of the union loop of Merger.cpp:522-542. -/
structure UnionSt where
  mergedDeletions : List (Nat × DeletedObject) := []
  entries : List Entry := []
  groupQueue : List Nat := []
  deletions : List DeletedObject := []

/-- One iteration of the union loop: a first-seen uuid is filed into the
map and — depending on whether it is live as an entry, live as a group, or
not live — into the entry list, the group queue or straight into the
output log; a repeated uuid only lowers the map's tombstone when strictly
earlier. -/
def unionStep (root : Group) (st : UnionSt) (object : DeletedObject) : UnionSt :=
  match dfind st.mergedDeletions object.uuid with
  | none =>
    let st := { st with mergedDeletions := st.mergedDeletions ++ [(object.uuid, object)] }
    match root.findEntryByUuid object.uuid with
    | some entry => { st with entries := st.entries ++ [entry] }
    | none =>
      match root.findGroupByUuid object.uuid with
      | some _ => { st with groupQueue := st.groupQueue ++ [object.uuid] }
      | none => { st with deletions := st.deletions ++ [object] }
  | some current =>
    if current.deletionTime > object.deletionTime then
      { st with mergedDeletions := dreplace st.mergedDeletions object.uuid object }
    else st

/-- Mutable state threaded through the two erasure passes. -/
structure DelSt where
  root : Group
  deletions : List DeletedObject
  changes : List Change

/-- Entry pass (Merger.cpp:544-559): a live entry modified strictly after
its union tombstone survives and the tombstone is dropped; otherwise the
tombstone goes to the output log, a `Deleted` change is recorded
(child/orphan by parent presence) and the entry is erased with the
deletion log restored afterwards. -/
def entryPassStep (map : List (Nat × DeletedObject)) (st : DelSt) (entry : Entry) : DelSt :=
  match dfind map entry.uuid with
  | none => st
  | some object =>
    if entry.timeInfo.lastModificationTime > object.deletionTime then st
    else
      let details := if (st.root.parentGroupOfEntry entry.uuid).isSome
        then "Deleting child" else "Deleting orphan"
      { root := st.root.removeEntry entry.uuid
        deletions := st.deletions ++ [object]
        changes := st.changes ++ [Change.ofEntry st.root .Deleted entry details] }

/-- Group pass (Merger.cpp:561-584), with explicit fuel standing for the
unbounded `while`: the head of the queue is re-enqueued at the tail while
any of its children is still queued; otherwise it is processed — kept if
modified after its tombstone or still holding live content, erased with
its tombstone logged otherwise.  Returns the final state, the order in
which groups were processed, and whether the queue was exhausted before
the fuel. -/
def groupPass (map : List (Nat × DeletedObject)) (fuel : Nat) (queue : List Nat)
    (st : DelSt) (order : List Nat) : DelSt × List Nat × Bool :=
  match fuel with
  | 0 => (st, order, queue.isEmpty)
  | fuel + 1 =>
    match queue with
    | [] => (st, order, true)
    | u :: rest =>
      match st.root.findGroupByUuid u with
      | none => groupPass map fuel rest st (order ++ [u])
      | some group =>
        if group.children.any (fun c => rest.contains c.uuid) then
          groupPass map fuel (rest ++ [u]) st order
        else
          match dfind map u with
          | none => groupPass map fuel rest st (order ++ [u])
          | some object =>
            if group.timeInfo.lastModificationTime > object.deletionTime then
              groupPass map fuel rest st (order ++ [u])
            else if !group.entriesRecursive.isEmpty || !group.strictDescendants.isEmpty then
              groupPass map fuel rest st (order ++ [u])
            else
              let details := if (st.root.parentGroupOfGroup u).isSome
                then "Deleting child" else "Deleting orphan"
              groupPass map fuel rest
                { root := st.root.removeGroup u
                  deletions := st.deletions ++ [object]
                  changes := st.changes ++ [Change.ofGroup st.root .Deleted u details] }
                (order ++ [u])

/-- Fuel that always outlasts the group pass: within `n` steps at least
one element is processed, so `(n + 1) * (n + 1)` steps suffice. -/
def groupPassFuel (n : Nat) : Nat :=
  (n + 1) * (n + 1)

/-- The union fold of Merger.cpp:522-542 as a whole. -/
def unionState (root : Group) (dels : List DeletedObject) : UnionSt :=
  dels.foldl (unionStep root) {}

/-- The body of `Merger::mergeDeletions` under the Synchronize mode
(Merger.cpp:514-590): union the two tombstone logs, resolve
tombstone-vs-live conflicts in the entry pass and then the leaf-first
group pass, and replace the target's deletion log with the accumulated
output, recording one summary change when the log changed. -/
def mergeDeletionsSync (sourceDb targetDb : Database) : Database × List Change :=
  let ust := unionState targetDb.root (targetDb.deletions ++ sourceDb.deletions)
  let st1 := ust.entries.foldl (entryPassStep ust.mergedDeletions)
    ⟨targetDb.root, ust.deletions, []⟩
  let st2 := (groupPass ust.mergedDeletions (groupPassFuel ust.groupQueue.length)
    ust.groupQueue st1 []).1
  let changes := st2.changes ++
    (if st2.deletions != targetDb.deletions then
      [{ details := "Changed deleted objects" }] else [])
  ({ targetDb with root := st2.root, deletions := st2.deletions }, changes)

/-- `Merger::mergeDeletions` (Merger.cpp:505-591): applies only under the
effective merge mode `Synchronize`. -/
def mergeDeletions (forced : MergeMode) (sourceDb targetDb : Database) :
    Database × List Change :=
  if effectiveMode forced targetDb.root != .Synchronize then (targetDb, [])
  else mergeDeletionsSync sourceDb targetDb

/-- All group uuids of the tree, the node itself first, depth first. -/
def Group.groupUuids (g : Group) : List Nat :=
  g.groupsRecursive.map Group.uuid

/-!  Recursive tree merger (Merger.cpp:169-225) and the entry conflict
resolver (Merger.cpp:346-391). -/

/-- `Merger::moveEntry` via `Entry::setGroup`: no-op when the entry
already sits in the target group, otherwise detach and append to the
target group's entry list (timestamp bookkeeping is suspended, so no
`TimeInfo` field changes). -/
def Group.moveEntryTo (root : Group) (u gu : Nat) : Group :=
  match root.findEntryByUuid u with
  | none => root
  | some e =>
    if (root.parentGroupOfEntry u).map (·.uuid) == some gu then root
    else (root.removeEntry u).addEntryTo gu e

/-- `Merger::moveGroup` via `Group::setParent`: no-op when the group's
parent is already the target, otherwise detach the subtree and append it
to the target group's children. -/
def Group.moveGroupTo (root : Group) (u gu : Nat) : Group :=
  match root.findGroupByUuid u with
  | none => root
  | some sub =>
    if (root.parentGroupOfGroup u).map (·.uuid) == some gu then root
    else (root.removeGroup u).addChildTo gu sub

/-- State threaded through the tree walk. -/
structure TreeSt where
  root : Group
  changes : List Change

/-- `Merger::resolveEntryConflict` / `_MergeHistories`
(Merger.cpp:346-391): with the source strictly newer (normalized), clone
the source over the erased target entry inside the target's current
parent; otherwise merge the source's history into the target in place and
record a change only when the history changed.  The merge mode is passed
through in the source but unused by the history merger. -/
def resolveEntryConflictStep (maxItems : Nat) (sourceEntry targetEntry : Entry)
    (st : TreeSt) : TreeSt :=
  let comparison := compareIgnoreMs targetEntry.timeInfo.lastModificationTime
      sourceEntry.timeInfo.lastModificationTime
  if comparison == .lt then
    let currentGroupUuid := ((st.root.parentGroupOfEntry targetEntry.uuid).map (·.uuid)).getD 0
    let change := Change.ofEntry st.root .Modified targetEntry "Synchronizing from newer source"
    let clonedEntry := (mergeHistory targetEntry sourceEntry maxItems).2
    ⟨(st.root.removeEntry targetEntry.uuid).addEntryTo currentGroupUuid clonedEntry,
     st.changes ++ [change]⟩
  else
    let (changed, targetEntry2) := mergeHistory sourceEntry targetEntry maxItems
    let root := st.root.replaceEntry targetEntry.uuid targetEntry2
    if changed then
      ⟨root, st.changes ++ [Change.ofEntry root .Modified targetEntry2 "Synchronizing from older source"]⟩
    else
      ⟨root, st.changes⟩

/-- One source entry of the entry loop of Merger.cpp:174-191. -/
def mergeGroupEntryStep (maxItems : Nat) (srcPath : String) (tgtGroupUuid : Nat)
    (st : TreeSt) (sourceEntry : Entry) : TreeSt :=
  match st.root.findEntryByUuid sourceEntry.uuid with
  | none =>
    ⟨st.root.addEntryTo tgtGroupUuid sourceEntry,
     st.changes ++ [{ type := .Added, group := srcPath, title := sourceEntry.title
                      uuid := some sourceEntry.uuid, details := "Creating missing" }]⟩
  | some targetEntry =>
    let locationChanged :=
      targetEntry.timeInfo.locationChanged < sourceEntry.timeInfo.locationChanged
    let st :=
      if locationChanged
          && (st.root.parentGroupOfEntry targetEntry.uuid).map (·.uuid) != some tgtGroupUuid then
        ⟨st.root.moveEntryTo targetEntry.uuid tgtGroupUuid,
         st.changes ++ [{ type := .Moved, group := srcPath, title := sourceEntry.title
                          uuid := some sourceEntry.uuid, details := "Relocating" }]⟩
      else st
    resolveEntryConflictStep maxItems sourceEntry targetEntry st

/-- One source child group of the child loop of Merger.cpp:194-215,
before the recursion into the pair: missing groups are cloned without
entries and children (keeping the source's data, including its
location-change time), moved groups are relocated with the source's
location-change time copied, and the group conflict resolver runs on the
pair. -/
def mergeGroupChildStep (sourceChildGroup : Group) (childPath : String)
    (tgtGroupUuid : Nat) (st : TreeSt) : TreeSt :=
  match st.root.findGroupByUuid sourceChildGroup.uuid with
  | none =>
    ⟨st.root.addChildTo tgtGroupUuid (Group.node sourceChildGroup.dat [] []),
     st.changes ++ [{ type := .Added, group := childPath
                      uuid := some sourceChildGroup.uuid, details := "Creating missing" }]⟩
  | some targetChildGroup =>
    let locationChanged := targetChildGroup.timeInfo.locationChanged
        < sourceChildGroup.timeInfo.locationChanged
    let st :=
      if locationChanged
          && (st.root.parentGroupOfGroup targetChildGroup.uuid).map (·.uuid)
              != some tgtGroupUuid then
        let root := st.root.moveGroupTo targetChildGroup.uuid tgtGroupUuid
        let root := root.updateGroupData targetChildGroup.uuid (fun d =>
          { d with timeInfo := { d.timeInfo with
              locationChanged := sourceChildGroup.timeInfo.locationChanged } })
        let mv : Change := { type := .Moved, group := childPath,
                             uuid := some sourceChildGroup.uuid, details := "Relocating" }
        ⟨root, st.changes ++ [mv]⟩
      else st
    match st.root.findGroupByUuid sourceChildGroup.uuid with
    | none => st
    | some current =>
      let (d, confChanges) :=
        resolveGroupConflict sourceChildGroup.dat current.dat childPath
      ⟨st.root.updateGroupData sourceChildGroup.uuid (fun _ => d),
       st.changes ++ confChanges⟩

mutual
/-- `Merger::mergeGroup` (Merger.cpp:169-225): process the source group's
entries, then its child groups (creating, relocating, resolving
conflicts), recursing into each child pair.  `srcPath` is the full path of
`src` inside the source tree. -/
def mergeGroup (maxItems : Nat) : Group → String → Nat → TreeSt → TreeSt
  | .node _ entries children, srcPath, tgtGroupUuid, st =>
    let st := entries.foldl (mergeGroupEntryStep maxItems srcPath tgtGroupUuid) st
    mergeGroupChildren maxItems children srcPath tgtGroupUuid st
def mergeGroupChildren (maxItems : Nat) : List Group → String → Nat → TreeSt → TreeSt
  | [], _, _, st => st
  | sourceChildGroup :: rest, srcPath, tgtGroupUuid, st =>
    let childPath := srcPath ++ "/" ++ sourceChildGroup.name
    let st := mergeGroupChildStep sourceChildGroup childPath tgtGroupUuid st
    let st := mergeGroup maxItems sourceChildGroup childPath sourceChildGroup.uuid st
    mergeGroupChildren maxItems rest srcPath tgtGroupUuid st
end

/-- `Merger::merge` (Merger.cpp:153-167): tree merge, then deletion
merge, then metadata merge, concatenating the change lists.  `forced` is
the forced merge mode of `setForcedMergeMode` (`Default` when unset). -/
def Merger.merge (forced : MergeMode) (sourceDb targetDb : Database) :
    Database × List Change :=
  let st := mergeGroup targetDb.meta.historyMaxItems sourceDb.root
    ("/" ++ sourceDb.root.name) targetDb.root.uuid ⟨targetDb.root, []⟩
  let (db2, delChanges) := mergeDeletions forced sourceDb { targetDb with root := st.root }
  let (meta2, metaChanges) := mergeMetadata sourceDb.meta db2.meta
  ({ db2 with meta := meta2 }, st.changes ++ delChanges ++ metaChanges)

mutual
/-- Modelled from the spec: `Group::clone(CloneIncludeHistory,
CloneIncludeEntries)` as used by the merge dialog's preview — a deep copy
of the whole subtree keeping every uuid, timestamp, entry and history item
(MergeDialog.cpp:68-72, "deep copy of root group with same uuid"). -/
def Group.cloneGroup : Group → Group
  | .node d es cs =>
    .node d (es.map (fun e => Entry.mk e.data e.history)) (Group.cloneGroupList cs)
def Group.cloneGroupList : List Group → List Group
  | [] => []
  | c :: cs => c.cloneGroup :: Group.cloneGroupList cs
end

/-- The preview database built by `MergeDialog::setupChangeTable`
(MergeDialog.cpp:67-73): a fresh `Database` holding only the deep clone of
the target's root group — its deletion log is empty and its metadata is
the default block. -/
def previewDatabase (targetDb : Database) : Database :=
  { root := targetDb.root.cloneGroup, deletions := [], meta := {} }

/-- Last `n` items of a chain compared pairwise ignoring sub-second
differences — the comparison the specification describes for the
no-change detection (§4.4 step 6). -/
def lastNEqualIgnoreMs (oldItems newItems : List EntryData) (n : Nat) : Bool :=
  let o := oldItems.drop (oldItems.length - n)
  let w := newItems.drop (newItems.length - n)
  o.length == w.length && (o.zip w).all (fun p => p.1.equalsIgnoreMs p.2)

/-!  Concrete instances used by the counterexamples and witnesses. -/

/-- Source of the idempotence counterexample: one live entry, modified at
second 5, under the source root. -/
def idemSource : Database :=
  { root := .node { uuid := 100, name := "r" }
      [⟨{ uuid := 1, title := "e",
          timeInfo := { lastModificationTime := 5000, locationChanged := 1000 } }, []⟩] [] }

/-- Target of the idempotence counterexample: an empty synchronize-mode
tree whose deletion log holds a tombstone for the source's entry at
second 10. -/
def idemTarget : Database :=
  { root := .node { uuid := 200, name := "r", mergeMode := .Synchronize } [] []
    deletions := [⟨1, 10000⟩] }

/-- Source of the preview-fidelity counterexample: carries custom icon 7. -/
def previewSource : Database :=
  { root := .node { uuid := 100, name := "r" } [] []
    meta := { customIconsOrder := [7], customIcons := [(7, 1)] } }

/-- Target of the preview-fidelity counterexample: already has icon 7. -/
def previewTarget : Database :=
  { root := .node { uuid := 200, name := "r" } [] []
    meta := { customIconsOrder := [7], customIcons := [(7, 1)] } }

/-- Group-conflict counterexample: source modified at 10.7 s. -/
def rawSrcGroup : GroupData :=
  { uuid := 3, name := "srcname", timeInfo := { lastModificationTime := 10700 } }

/-- Group-conflict counterexample: target modified at 10.3 s — the same
whole second as the source. -/
def rawTgtGroup : GroupData :=
  { uuid := 3, name := "tgtname", timeInfo := { lastModificationTime := 10300 } }

/-- Tombstone-union counterexample: target log holds the later tombstone
for a uuid that is not live in the target tree. -/
def unionTarget : Database :=
  { root := .node { uuid := 200, name := "r", mergeMode := .Synchronize } [] []
    deletions := [⟨9, 10000⟩] }

/-- Tombstone-union counterexample: source log holds the earlier
tombstone for the same uuid. -/
def unionSource : Database :=
  { root := .node { uuid := 100, name := "r" } [] []
    deletions := [⟨9, 5000⟩] }

/-- History no-change counterexample: target history is one item at
second 2. -/
def histTgtEntry : Entry :=
  ⟨{ uuid := 5, title := "x", timeInfo := { lastModificationTime := 5000 } },
   [{ uuid := 5, title := "b", timeInfo := { lastModificationTime := 2000 } }]⟩

/-- History no-change counterexample: source history adds an older item
at second 1; both sides' current revisions agree. -/
def histSrcEntry : Entry :=
  ⟨{ uuid := 5, title := "x", timeInfo := { lastModificationTime := 5000 } },
   [{ uuid := 5, title := "a", timeInfo := { lastModificationTime := 1000 } }]⟩

/-- Losing-revision counterexample: the target (the older side) already
has a history item in the same whole second as its current revision. -/
def loseTgtEntry : Entry :=
  ⟨{ uuid := 6, title := "cur", timeInfo := { lastModificationTime := 3600 } },
   [{ uuid := 6, title := "old", timeInfo := { lastModificationTime := 3100 } }]⟩

/-- Losing-revision counterexample: the source is strictly newer. -/
def loseSrcEntry : Entry :=
  ⟨{ uuid := 6, title := "new", timeInfo := { lastModificationTime := 9000 } }, []⟩

/-- Group-pass ordering counterexample: chain root → g(11) → m(12) → d(13);
only g and d carry tombstones, so the queue is [11, 13] while 13 is a
strict descendant of 11 reachable through the unqueued 12. -/
def chainTarget : Database :=
  { root := .node { uuid := 10, name := "R", mergeMode := .Synchronize } []
      [.node { uuid := 11, name := "g" } []
        [.node { uuid := 12, name := "m" } []
          [.node { uuid := 13, name := "d" } [] []]]]
    deletions := [⟨11, 10000⟩, ⟨13, 10000⟩] }

/-- Trivial source database for deletion-phase counterexamples. -/
def chainSource : Database :=
  { root := .node { uuid := 100, name := "r" } [] [] }

/-- Delete-vs-edit scenario S6: the live target entry, last modified at
second 5. -/
def c5Entry : Entry :=
  ⟨{ uuid := 1, title := "e1", timeInfo := { lastModificationTime := 5000 } }, []⟩

/-- Delete-vs-edit scenario S6: synchronize-mode target holding the live
entry. -/
def c5Target : Database :=
  { root := .node { uuid := 200, name := "r", mergeMode := .Synchronize } [c5Entry] [] }

/-- Delete-vs-edit scenario S6: the source's deletion log holds the
tombstone for the entry at second 10. -/
def c5Source : Database :=
  { root := .node { uuid := 100, name := "r" } [] []
    deletions := [⟨1, 10000⟩] }

/-!  Helper lemmas. -/

/-- `QList::value` reads at or past the end yield the null default. -/
theorem listValueAt_ge_length (l : List EntryData) (i : Int)
    (h : (l.length : Int) ≤ i) : listValueAt l i = none := by
  unfold listValueAt
  split
  · rfl
  · rw [List.get?_eq_none]
    omega

/-- The probe at `i = 0` reads one past the end of both chains and never
reports a difference. -/
theorem probeOk_zero (oldItems newItems : List EntryData) :
    probeOk oldItems newItems 0 = true := by
  unfold probeOk
  rw [listValueAt_ge_length _ _ (by omega), listValueAt_ge_length _ _ (by omega)]

theorem mfind_minsert_self (m : List (Nat × EntryData)) (k : Nat) (v : EntryData) :
    mfind (minsert m k v) k = some v := by
  induction m with
  | nil => simp [minsert, mfind]
  | cons p rest ih =>
    obtain ⟨k', v'⟩ := p
    by_cases h1 : k < k'
    · have he : minsert ((k', v') :: rest) k v = (k, v) :: (k', v') :: rest := by
        simp [minsert, h1]
      simp [he, mfind]
    · by_cases h2 : k = k'
      · have he : minsert ((k', v') :: rest) k v = (k, v) :: rest := by
          simp [minsert, h1, h2]
        simp [he, mfind]
      · have he : minsert ((k', v') :: rest) k v = (k', v') :: minsert rest k v := by
          simp [minsert, h1, h2]
        rw [he]
        unfold mfind at ih ⊢
        rw [List.find?_cons_of_neg _ (by simp [Ne.symm h2])]
        exact ih

/-- C9: with an effective merge mode other than Synchronize,
`mergeDeletions` emits no change, erases nothing and leaves the target
database — deletion log included — untouched. -/
theorem C9_frame_non_synchronize (forced : MergeMode) (sourceDb targetDb : Database)
    (h : effectiveMode forced targetDb.root ≠ .Synchronize) :
    mergeDeletions forced sourceDb targetDb = (targetDb, []) := by
  simp only [mergeDeletions]
  split
  · rfl
  · next hcond => exact absurd (by simpa using hcond) h

theorem C9_frame_non_synchronize_witness :
    mergeDeletions .KeepLocal idemSource idemTarget = (idemTarget, []) :=
  C9_frame_non_synchronize .KeepLocal idemSource idemTarget (by decide)

/-- C3 counterexample: the source and target group are modified within
the same whole second (10.3 s and 10.7 s), so their normalized
last-modification times are equal and the claim says the target stays
unchanged — but `resolveGroupConflict` compares raw times and overwrites
the target. -/
theorem C3_counterexample :
    Clock.serialized rawSrcGroup.timeInfo.lastModificationTime =
      Clock.serialized rawTgtGroup.timeInfo.lastModificationTime
    ∧ (resolveGroupConflict rawSrcGroup rawTgtGroup "/p").1 ≠ rawTgtGroup := by
  decide

/-- C3 (amended): `resolveGroupConflict` copies the source group's name,
notes, icon (custom-icon uuid when the source's icon number is zero, the
numeric id otherwise) and expiry time and overwrites the target's
last-modification time with the source's value if and only if the
source's raw (full-precision, not normalized) last-modification time is
strictly greater than the target's; otherwise the target group is left
unchanged and no change is recorded. -/
theorem C3_group_conflict_raw_newer_wins (src tgt : GroupData) (p : String) :
    (tgt.timeInfo.lastModificationTime < src.timeInfo.lastModificationTime →
      (resolveGroupConflict src tgt p).1.name = src.name
      ∧ (resolveGroupConflict src tgt p).1.notes = src.notes
      ∧ (src.iconNumber = 0 →
          (resolveGroupConflict src tgt p).1.iconNumber = 0
          ∧ (resolveGroupConflict src tgt p).1.iconUuid = src.iconUuid)
      ∧ (src.iconNumber ≠ 0 →
          (resolveGroupConflict src tgt p).1.iconNumber = src.iconNumber)
      ∧ (resolveGroupConflict src tgt p).1.timeInfo.expiryTime = src.timeInfo.expiryTime
      ∧ (resolveGroupConflict src tgt p).1.timeInfo.lastModificationTime
          = src.timeInfo.lastModificationTime
      ∧ (resolveGroupConflict src tgt p).1.uuid = tgt.uuid
      ∧ (resolveGroupConflict src tgt p).2 =
          [{ type := .Modified, group := p, uuid := some src.uuid,
             details := "Overwriting group properties" }])
    ∧ (¬ tgt.timeInfo.lastModificationTime < src.timeInfo.lastModificationTime →
      resolveGroupConflict src tgt p = (tgt, [])) := by
  constructor
  · intro h
    by_cases hi : src.iconNumber = 0
    · simp [resolveGroupConflict, h, hi]
    · have : (src.iconNumber == 0) = false := by simp [hi]
      simp [resolveGroupConflict, h, this, hi]
  · intro h
    simp [resolveGroupConflict, h]

theorem C3_group_conflict_raw_newer_wins_witness :
    (resolveGroupConflict rawSrcGroup rawTgtGroup "/p").1.name = rawSrcGroup.name
    ∧ resolveGroupConflict rawTgtGroup rawSrcGroup "/p" = (rawSrcGroup, []) :=
  ⟨((C3_group_conflict_raw_newer_wins rawSrcGroup rawTgtGroup "/p").1 (by decide)).1,
   (C3_group_conflict_raw_newer_wins rawTgtGroup rawSrcGroup "/p").2 (by decide)⟩

/-- C6 counterexample: the target's old chain is `[b]` and the merged
candidate chain is `[a, b]`; their last two items are not identical even
ignoring sub-second differences, yet `mergeHistory` reports no change
with `maxItems = 2` (the `i = 0` probe reads one past the end of both
chains, so only the last `maxItems - 1` items are compared). -/
theorem C6_counterexample :
    (mergeHistory histSrcEntry histTgtEntry 2).1 = false
    ∧ lastNEqualIgnoreMs histTgtEntry.history
        ((mergedHistoryMap histSrcEntry histTgtEntry).map (·.2)) 2 = false := by
  decide

/-- C6 (amended): `mergeHistory` reports no change — discarding the
candidate chain and leaving the target untouched — exactly when for every
`i` with `1 ≤ i < maxItems` the probes at position `length - i` of the old
and the merged chains are both absent or equal ignoring sub-second
differences; the `i = 0` probe reads one past the end of both chains and
never reports a difference, so effectively only the last `maxItems - 1`
items take part in the comparison. -/
theorem C6_history_unchanged_iff (s t : Entry) (maxItems : Nat) :
    ((mergeHistory s t maxItems).1 = false ↔
      ∀ i, 1 ≤ i → i < maxItems →
        probeOk t.history ((mergedHistoryMap s t).map (·.2)) i = true)
    ∧ ((mergeHistory s t maxItems).1 = false → (mergeHistory s t maxItems).2 = t) := by
  have hkey : (mergeHistory s t maxItems).1 = false ↔
      historyChanged t.history ((mergedHistoryMap s t).map (·.2)) maxItems = false := by
    unfold mergeHistory
    by_cases h : historyChanged t.history ((mergedHistoryMap s t).map (·.2)) maxItems
    · simp [h]
    · simp [h]
  constructor
  · rw [hkey]
    unfold historyChanged
    rw [List.any_eq_false]
    constructor
    · intro h i h1 h2
      have := h i (List.mem_range.mpr h2)
      simpa using this
    · intro h i hi
      rw [List.mem_range] at hi
      rcases Nat.eq_zero_or_pos i with h0 | h0
      · subst h0
        simp [probeOk_zero]
      · simpa using h i h0 hi
  · intro h
    rw [hkey] at h
    unfold mergeHistory
    simp [h]

theorem C6_history_unchanged_iff_witness :
    (mergeHistory histSrcEntry histTgtEntry 2).2 = histTgtEntry
    ∧ probeOk histTgtEntry.history
        ((mergedHistoryMap histSrcEntry histTgtEntry).map (·.2)) 1 = true :=
  ⟨(C6_history_unchanged_iff histSrcEntry histTgtEntry 2).2 (by decide),
   (C6_history_unchanged_iff histSrcEntry histTgtEntry 2).1.mp (by decide) 1
     (by decide) (by decide)⟩

/-- C7 counterexample: the target is the strictly older (normalized)
side, but its history already holds an item in the same whole second as
its current revision; the current revision is then *not* inserted into
the merged map — it is dropped from the merged chain entirely. -/
theorem C7_counterexample :
    Clock.serialized loseTgtEntry.timeInfo.lastModificationTime <
      Clock.serialized loseSrcEntry.timeInfo.lastModificationTime
    ∧ mfind (mergedHistoryMap loseSrcEntry loseTgtEntry)
        (Clock.serialized loseTgtEntry.timeInfo.lastModificationTime)
        ≠ some loseTgtEntry.data
    ∧ loseTgtEntry.data ∉ (mergedHistoryMap loseSrcEntry loseTgtEntry).map (·.2) := by
  decide

/-- C7 (amended): when the normalized last-modification times differ, the
current revision of the strictly older side is inserted into the merged
history map under its own normalized modification time *provided that key
is still free after the history union*; when a history item already
occupies the key, the map is left as the union and the losing current
revision is dropped. -/
theorem C7_losing_revision_insertion (s t : Entry) :
    (Clock.serialized t.timeInfo.lastModificationTime <
        Clock.serialized s.timeInfo.lastModificationTime →
      (mfind (historyUnionMap s t)
          (Clock.serialized t.timeInfo.lastModificationTime) = none →
        mfind (mergedHistoryMap s t)
          (Clock.serialized t.timeInfo.lastModificationTime) = some t.data)
      ∧ ((mfind (historyUnionMap s t)
          (Clock.serialized t.timeInfo.lastModificationTime)).isSome →
        mergedHistoryMap s t = historyUnionMap s t))
    ∧ (Clock.serialized s.timeInfo.lastModificationTime <
        Clock.serialized t.timeInfo.lastModificationTime →
      (mfind (historyUnionMap s t)
          (Clock.serialized s.timeInfo.lastModificationTime) = none →
        mfind (mergedHistoryMap s t)
          (Clock.serialized s.timeInfo.lastModificationTime) = some s.data)
      ∧ ((mfind (historyUnionMap s t)
          (Clock.serialized s.timeInfo.lastModificationTime)).isSome →
        mergedHistoryMap s t = historyUnionMap s t)) := by
  constructor
  · intro hlt
    have hcmp : compareIgnoreMs s.timeInfo.lastModificationTime
        t.timeInfo.lastModificationTime = .gt := by
      unfold compareIgnoreMs
      exact Nat.compare_eq_gt.mpr hlt
    constructor
    · intro hfree
      unfold mergedHistoryMap
      simp [hcmp, hlt, hfree, mfind_minsert_self,
        show (Ordering.gt == Ordering.lt) = false from rfl]
    · intro hbusy
      unfold mergedHistoryMap
      simp [hcmp, hlt, hbusy,
        show (Ordering.gt == Ordering.lt) = false from rfl]
  · intro hlt
    have hcmp : compareIgnoreMs s.timeInfo.lastModificationTime
        t.timeInfo.lastModificationTime = .lt := by
      unfold compareIgnoreMs
      exact Nat.compare_eq_lt.mpr hlt
    have hnot : ¬ Clock.serialized t.timeInfo.lastModificationTime <
        Clock.serialized s.timeInfo.lastModificationTime := Nat.lt_asymm hlt
    constructor
    · intro hfree
      unfold mergedHistoryMap
      simp [hcmp, hlt, hnot, hfree, mfind_minsert_self,
        show (Ordering.lt == Ordering.gt) = false from rfl]
    · intro hbusy
      unfold mergedHistoryMap
      simp [hcmp, hlt, hnot, hbusy,
        show (Ordering.lt == Ordering.gt) = false from rfl]

theorem C7_losing_revision_insertion_witness :
    mfind (mergedHistoryMap histSrcEntry loseSrcEntry)
      (Clock.serialized histSrcEntry.timeInfo.lastModificationTime)
      = some histSrcEntry.data :=
  ((C7_losing_revision_insertion histSrcEntry loseSrcEntry).2
    (by decide)).1 (by decide)

mutual
/-- A deep clone preserves the value: `Group.cloneGroup` is the
identity on the tree. -/
theorem Group.cloneGroup_eq : ∀ g : Group, g.cloneGroup = g
  | .node d es cs => by
    unfold Group.cloneGroup
    rw [Group.cloneGroupList_eq cs]
    have h : (fun e : Entry => Entry.mk e.data e.history) = id :=
      funext (fun e => by cases e; rfl)
    rw [h, List.map_id]
theorem Group.cloneGroupList_eq : ∀ cs : List Group, Group.cloneGroupList cs = cs
  | [] => rfl
  | c :: cs => by
    unfold Group.cloneGroupList
    rw [Group.cloneGroup_eq c, Group.cloneGroupList_eq cs]
end

/-- C2 counterexample: the merge dialog's preview runs against a fresh
database holding only a clone of the target's root group — with an empty
deletion log and default metadata — so when the real target already has
the source's custom icon, the preview's change list reports adding it
while the real merge reports nothing. -/
theorem C2_counterexample :
    (Merger.merge .Default previewSource (previewDatabase previewTarget)).2
      ≠ (Merger.merge .Default previewSource previewTarget).2 := by
  decide

/-- C2 (amended): merging is a deterministic function of its inputs, and
running it against a database whose root is a deep clone of the target's
root *and which also carries the target's deletion log and metadata*
produces exactly the change list of running it against the target itself;
the dialog's preview database carries a fresh log and metadata instead,
which the counterexample shows can change the list. -/
theorem C2_preview_fidelity_with_carried_state (forced : MergeMode) (S T : Database) :
    Merger.merge forced S
        { root := T.root.cloneGroup, deletions := T.deletions, meta := T.meta }
      = Merger.merge forced S T := by
  obtain ⟨r, d, m⟩ := T
  simp only [Group.cloneGroup_eq]

theorem dfind_append_some {m1 m2 : List (Nat × DeletedObject)} {u : Nat}
    {d : DeletedObject} (h : dfind m1 u = some d) : dfind (m1 ++ m2) u = some d := by
  unfold dfind at h ⊢
  rw [List.find?_append]
  cases hf : m1.find? (fun p => p.1 == u) with
  | none => rw [hf] at h; simp at h
  | some p => rw [hf] at h; simpa using h

theorem dfind_append_none {m1 m2 : List (Nat × DeletedObject)} {u : Nat}
    (h : dfind m1 u = none) : dfind (m1 ++ m2) u = dfind m2 u := by
  unfold dfind at h ⊢
  rw [List.find?_append]
  cases hf : m1.find? (fun p => p.1 == u) with
  | none => simp
  | some p => rw [hf] at h; simp at h

theorem dfind_singleton_self (k : Nat) (d : DeletedObject) : dfind [(k, d)] k = some d := by
  simp [dfind]

theorem dfind_singleton_ne {k u : Nat} (h : u ≠ k) (d : DeletedObject) :
    dfind [(k, d)] u = none := by
  simp [dfind, Ne.symm h]

theorem dfind_dreplace_self {m : List (Nat × DeletedObject)} {u : Nat} {d0 : DeletedObject}
    (h : dfind m u = some d0) (d : DeletedObject) : dfind (dreplace m u d) u = some d := by
  induction m with
  | nil => simp [dfind] at h
  | cons p rest ih =>
    unfold dreplace at *
    by_cases hp : p.1 = u
    · have hb : (p.1 == u) = true := beq_iff_eq.mpr hp
      simp only [List.map_cons, hb, if_true]
      unfold dfind
      rw [List.find?_cons_of_pos _ (by simp)]
      rfl
    · have hb : (p.1 == u) = false := beq_eq_false_iff_ne.mpr hp
      simp only [List.map_cons, hb, if_false]
      unfold dfind at h ⊢
      rw [List.find?_cons_of_neg _ (by simp [hp])] at h
      rw [List.find?_cons_of_neg _ (by simp [hp])]
      exact ih h

theorem dfind_dreplace_ne {m : List (Nat × DeletedObject)} {u v : Nat}
    (h : v ≠ u) (d : DeletedObject) : dfind (dreplace m u d) v = dfind m v := by
  induction m with
  | nil => rfl
  | cons p rest ih =>
    unfold dreplace at *
    by_cases hp : p.1 = u
    · have hb : (p.1 == u) = true := beq_iff_eq.mpr hp
      simp only [List.map_cons, hb, if_true]
      unfold dfind
      rw [List.find?_cons_of_neg _ (by simp [Ne.symm h])]
      rw [List.find?_cons_of_neg _ (by simp [hp ▸ Ne.symm h])]
      exact ih
    · have hb : (p.1 == u) = false := beq_eq_false_iff_ne.mpr hp
      simp only [List.map_cons, hb, if_false]
      by_cases hv : p.1 = v
      · unfold dfind
        rw [List.find?_cons_of_pos _ (by simp [hv])]
        rw [List.find?_cons_of_pos _ (by simp [hv])]
        simp
      · unfold dfind
        rw [List.find?_cons_of_neg _ (by simp [hv])]
        rw [List.find?_cons_of_neg _ (by simp [hv])]
        exact ih

/-- The tombstone map after one union step seeing a fresh uuid: the
tombstone is appended. -/
theorem unionStep_map_none (root : Group) (st : UnionSt) (obj : DeletedObject)
    (hd : dfind st.mergedDeletions obj.uuid = none) :
    (unionStep root st obj).mergedDeletions =
      st.mergedDeletions ++ [(obj.uuid, obj)] := by
  cases he : root.findEntryByUuid obj.uuid with
  | some e => simp [unionStep, hd, he]
  | none =>
    cases hg : root.findGroupByUuid obj.uuid with
    | some g => simp [unionStep, hd, he, hg]
    | none => simp [unionStep, hd, he, hg]

/-- The tombstone map after one union step seeing a repeated uuid: the
map's tombstone is replaced only when the new one is strictly earlier. -/
theorem unionStep_map_some (root : Group) (st : UnionSt) (obj : DeletedObject)
    (cur : DeletedObject) (hd : dfind st.mergedDeletions obj.uuid = some cur) :
    (unionStep root st obj).mergedDeletions =
      if cur.deletionTime > obj.deletionTime then
        dreplace st.mergedDeletions obj.uuid obj
      else st.mergedDeletions := by
  by_cases ht : cur.deletionTime > obj.deletionTime
  · simp [unionStep, hd, ht]
  · simp [unionStep, hd, ht]

/-- Fold invariant behind the earliest-tombstone property of the union
map. -/
theorem unionFold_map_min (root : Group) :
    ∀ (post pre : List DeletedObject) (st : UnionSt),
      (∀ u d, dfind st.mergedDeletions u = some d →
        d ∈ pre ∧ d.uuid = u ∧ ∀ d' ∈ pre, d'.uuid = u → d.deletionTime ≤ d'.deletionTime) →
      (∀ u, dfind st.mergedDeletions u = none → ∀ d' ∈ pre, d'.uuid ≠ u) →
      ∀ u d, dfind ((post.foldl (unionStep root) st).mergedDeletions) u = some d →
        d ∈ pre ++ post ∧ d.uuid = u ∧
          ∀ d' ∈ pre ++ post, d'.uuid = u → d.deletionTime ≤ d'.deletionTime := by
  intro post
  induction post with
  | nil =>
    intro pre st hs _ u d hfind
    simpa using hs u d hfind
  | cons obj rest ih =>
    intro pre st hs hn u d hfind
    have hs' : ∀ w e, dfind (unionStep root st obj).mergedDeletions w = some e →
        e ∈ pre ++ [obj] ∧ e.uuid = w ∧
          ∀ d' ∈ pre ++ [obj], d'.uuid = w → e.deletionTime ≤ d'.deletionTime := by
      intro w e he
      cases hd : dfind st.mergedDeletions obj.uuid with
      | none =>
        rw [unionStep_map_none root st obj hd] at he
        by_cases hw : w = obj.uuid
        · subst hw
          rw [dfind_append_none hd, dfind_singleton_self] at he
          cases he
          refine ⟨by simp, rfl, ?_⟩
          intro d' hd' hu'
          rcases List.mem_append.mp hd' with hmem | hmem
          · exact absurd hu' (hn _ hd d' hmem)
          · simp at hmem
            subst hmem
            exact Nat.le_refl _
        · have he2 : dfind st.mergedDeletions w = some e := by
            cases hf : dfind st.mergedDeletions w with
            | none => rw [dfind_append_none hf, dfind_singleton_ne hw] at he; cases he
            | some p => rw [dfind_append_some hf] at he; exact he
          obtain ⟨hm, hu, hmin⟩ := hs w e he2
          refine ⟨by simp [hm], hu, ?_⟩
          intro d' hd' hu'
          rcases List.mem_append.mp hd' with hmem | hmem
          · exact hmin d' hmem hu'
          · simp at hmem
            subst hmem
            exact absurd hu'.symm hw
      | some cur =>
        rw [unionStep_map_some root st obj cur hd] at he
        by_cases ht : cur.deletionTime > obj.deletionTime
        · rw [if_pos ht] at he
          by_cases hw : w = obj.uuid
          · subst hw
            rw [dfind_dreplace_self hd] at he
            cases he
            obtain ⟨hmc, huc, hminc⟩ := hs _ cur hd
            refine ⟨by simp, rfl, ?_⟩
            intro d' hd' hu'
            rcases List.mem_append.mp hd' with hmem | hmem
            · exact Nat.le_trans (Nat.le_of_lt ht) (hminc d' hmem hu')
            · simp at hmem
              subst hmem
              exact Nat.le_refl _
          · rw [dfind_dreplace_ne hw] at he
            obtain ⟨hm, hu, hmin⟩ := hs w e he
            refine ⟨by simp [hm], hu, ?_⟩
            intro d' hd' hu'
            rcases List.mem_append.mp hd' with hmem | hmem
            · exact hmin d' hmem hu'
            · simp at hmem
              subst hmem
              exact absurd hu'.symm hw
        · rw [if_neg ht] at he
          obtain ⟨hm, hu, hmin⟩ := hs w e he
          refine ⟨by simp [hm], hu, ?_⟩
          intro d' hd' hu'
          rcases List.mem_append.mp hd' with hmem | hmem
          · exact hmin d' hmem hu'
          · simp at hmem
            subst hmem
            rw [← hu'] at he
            rw [hd] at he
            cases he
            exact Nat.le_of_not_lt ht
    have hn' : ∀ w, dfind (unionStep root st obj).mergedDeletions w = none →
        ∀ d' ∈ pre ++ [obj], d'.uuid ≠ w := by
      intro w hnone d' hd'
      cases hd : dfind st.mergedDeletions obj.uuid with
      | none =>
        rw [unionStep_map_none root st obj hd] at hnone
        by_cases hw : w = obj.uuid
        · subst hw
          rw [dfind_append_none hd, dfind_singleton_self] at hnone
          cases hnone
        · have h0 : dfind st.mergedDeletions w = none := by
            cases hf : dfind st.mergedDeletions w with
            | none => rfl
            | some p => rw [dfind_append_some hf] at hnone; cases hnone
          rcases List.mem_append.mp hd' with hmem | hmem
          · exact hn w h0 d' hmem
          · simp at hmem
            subst hmem
            exact fun hh => hw hh.symm
      | some cur =>
        rw [unionStep_map_some root st obj cur hd] at hnone
        have h0 : dfind st.mergedDeletions w = none := by
          by_cases ht : cur.deletionTime > obj.deletionTime
          · rw [if_pos ht] at hnone
            by_cases hw : w = obj.uuid
            · subst hw
              rw [dfind_dreplace_self hd] at hnone
              cases hnone
            · rw [dfind_dreplace_ne hw] at hnone
              exact hnone
          · rw [if_neg ht] at hnone
            exact hnone
        rcases List.mem_append.mp hd' with hmem | hmem
        · exact hn w h0 d' hmem
        · simp at hmem
          subst hmem
          intro hu
          rw [hu] at hd
          rw [hd] at h0
          cases h0
    have hmain := ih (pre ++ [obj]) (unionStep root st obj) hs' hn' u d
      (by simpa using hfind)
    have h1 : pre ++ [obj] ++ rest = pre ++ obj :: rest := by simp
    rw [h1] at hmain
    exact hmain

/-- C4 counterexample: uuid 9 is not live in the target; the target log
holds its tombstone at second 10 and the source log one at second 5, yet
the resulting deletion log carries the first-encountered (target-side,
later) tombstone, not the earliest one. -/
theorem C4_counterexample :
    (⟨9, 5000⟩ : DeletedObject) ∈ unionTarget.deletions ++ unionSource.deletions
    ∧ (5000 : Nat) < 10000
    ∧ (mergeDeletions .Default unionSource unionTarget).1.deletions = [⟨9, 10000⟩] := by
  decide

/-- C4 (amended): the union map of `mergeDeletions` assigns to every uuid
a tombstone drawn from the concatenated logs, keyed by that uuid, whose
deletion time is minimal among all tombstones of that uuid — and this map
value is what resolves conflicts against live entries and groups; the
tombstone carried straight into the output log for a uuid that is *not*
live, however, is the first-encountered one and may be later. -/
theorem C4_union_map_earliest (root : Group) (dels : List DeletedObject)
    (u : Nat) (d : DeletedObject)
    (h : dfind (unionState root dels).mergedDeletions u = some d) :
    d ∈ dels ∧ d.uuid = u ∧
      ∀ d' ∈ dels, d'.uuid = u → d.deletionTime ≤ d'.deletionTime := by
  have hmain := unionFold_map_min root dels [] {} ?_ ?_ u d h
  · simpa using hmain
  · intro w e he
    simp [dfind] at he
  · intro w _ d' hd'
    simp at hd'

theorem C4_union_map_earliest_witness :
    (⟨9, 5000⟩ : DeletedObject) ∈ unionTarget.deletions ++ unionSource.deletions
    ∧ DeletedObject.uuid ⟨9, 5000⟩ = 9 :=
  ⟨(C4_union_map_earliest unionTarget.root
      (unionTarget.deletions ++ unionSource.deletions) 9 ⟨9, 5000⟩ (by decide)).1,
   (C4_union_map_earliest unionTarget.root
      (unionTarget.deletions ++ unionSource.deletions) 9 ⟨9, 5000⟩ (by decide)).2.1⟩

theorem find?_pred_congr {α : Type} {l : List α} {p q : α → Bool}
    (h : ∀ a, p a = q a) : l.find? p = l.find? q := by
  rw [show p = q from funext h]

theorem CustomData.kv_removeKey (cd : CustomData) (k : String) :
    (cd.removeKey k).kv = cd.kv.filter (fun p => p.1 != k) := rfl

theorem CustomData.kv_set (cd : CustomData) (k v : String) :
    (cd.set k v).kv =
      if cd.containsKey k then cd.kv.map (fun p => if p.1 == k then (k, v) else p)
      else cd.kv ++ [(k, v)] := by
  unfold CustomData.set
  by_cases h : cd.containsKey k
  · rw [if_pos h, if_pos h]
  · rw [if_neg h, if_neg h]

theorem CustomData.protectedKeys_removeKey (cd : CustomData) (k : String) :
    (cd.removeKey k).protectedKeys = cd.protectedKeys := rfl

theorem CustomData.protectedKeys_set (cd : CustomData) (k v : String) :
    (cd.set k v).protectedKeys = cd.protectedKeys := by
  unfold CustomData.set
  by_cases h : cd.containsKey k
  · rw [if_pos h]
  · rw [if_neg h]

theorem find?_filter_self_none (kv : List (String × String)) (k : String) :
    (kv.filter (fun p => p.1 != k)).find? (fun p => p.1 == k) = none := by
  rw [List.find?_eq_none]
  intro x hx
  have hq := List.of_mem_filter hx
  simp only [bne_iff_ne, ne_eq] at hq
  simp [hq]

theorem find?_filter_ne (kv : List (String × String)) {k k' : String} (h : k' ≠ k) :
    (kv.filter (fun p => p.1 != k)).find? (fun p => p.1 == k')
      = kv.find? (fun p => p.1 == k') := by
  induction kv with
  | nil => rfl
  | cons p rest ih =>
    by_cases hp : p.1 = k
    · rw [show List.filter (fun p => p.1 != k) (p :: rest)
          = List.filter (fun p => p.1 != k) rest from by simp [hp]]
      rw [List.find?_cons_of_neg _ (by simp [hp, Ne.symm h])]
      exact ih
    · rw [show List.filter (fun p => p.1 != k) (p :: rest)
          = p :: List.filter (fun p => p.1 != k) rest from by simp [hp]]
      by_cases hm : p.1 = k'
      · rw [List.find?_cons_of_pos _ (by simp [hm]), List.find?_cons_of_pos _ (by simp [hm])]
      · rw [List.find?_cons_of_neg _ (by simp [hm]), List.find?_cons_of_neg _ (by simp [hm])]
        exact ih

theorem CustomData.containsKey_removeKey_self (cd : CustomData) (k : String) :
    (cd.removeKey k).containsKey k = false := by
  unfold CustomData.containsKey
  rw [CustomData.kv_removeKey, find?_filter_self_none]
  rfl

theorem CustomData.value_removeKey_ne (cd : CustomData) {k k' : String} (h : k' ≠ k) :
    (cd.removeKey k).value k' = cd.value k' := by
  unfold CustomData.value
  rw [CustomData.kv_removeKey, find?_filter_ne cd.kv h]

theorem CustomData.containsKey_removeKey_ne (cd : CustomData) {k k' : String} (h : k' ≠ k) :
    (cd.removeKey k).containsKey k' = cd.containsKey k' := by
  unfold CustomData.containsKey
  rw [CustomData.kv_removeKey, find?_filter_ne cd.kv h]

theorem CustomData.find?_map_set_self (kv : List (String × String)) (k v : String) :
    (kv.map (fun p => if p.1 == k then (k, v) else p)).find? (fun p => p.1 == k)
      = (kv.find? (fun p => p.1 == k)).map (fun _ => (k, v)) := by
  induction kv with
  | nil => rfl
  | cons p rest ih =>
    by_cases hp : p.1 = k
    · simp only [List.map_cons, beq_iff_eq.mpr hp, if_true]
      rw [List.find?_cons_of_pos _ (by simp), List.find?_cons_of_pos _ (by simp [hp])]
      rfl
    · have hb : (p.1 == k) = false := beq_eq_false_iff_ne.mpr hp
      simp only [List.map_cons, hb, if_false]
      rw [List.find?_cons_of_neg _ (by simp [hp]), List.find?_cons_of_neg _ (by simp [hp])]
      exact ih

theorem CustomData.find?_map_set_ne (kv : List (String × String)) {k k' : String}
    (h : k' ≠ k) (v : String) :
    (kv.map (fun p => if p.1 == k then (k, v) else p)).find? (fun p => p.1 == k')
      = kv.find? (fun p => p.1 == k') := by
  induction kv with
  | nil => rfl
  | cons p rest ih =>
    by_cases hp : p.1 = k
    · simp only [List.map_cons, beq_iff_eq.mpr hp, if_true]
      rw [List.find?_cons_of_neg _ (by simp [Ne.symm h]),
        List.find?_cons_of_neg _ (by simp [hp, Ne.symm h])]
      exact ih
    · have hb : (p.1 == k) = false := beq_eq_false_iff_ne.mpr hp
      simp only [List.map_cons, hb, if_false]
      by_cases hm : p.1 = k'
      · rw [List.find?_cons_of_pos _ (by simp [hm]), List.find?_cons_of_pos _ (by simp [hm])]
        simp
      · rw [List.find?_cons_of_neg _ (by simp [hm]), List.find?_cons_of_neg _ (by simp [hm])]
        exact ih

theorem CustomData.value_set_self (cd : CustomData) (k v : String) :
    (cd.set k v).value k = v := by
  unfold CustomData.value
  rw [CustomData.kv_set]
  by_cases h : cd.containsKey k
  · rw [if_pos h]
    rw [CustomData.find?_map_set_self]
    unfold CustomData.containsKey at h
    obtain ⟨p, hp⟩ := Option.isSome_iff_exists.mp h
    rw [hp]
    rfl
  · rw [if_neg h]
    rw [List.find?_append]
    unfold CustomData.containsKey at h
    have hf : cd.kv.find? (fun p => p.1 == k) = none := by
      cases hf : cd.kv.find? (fun p => p.1 == k) with
      | none => rfl
      | some p => rw [hf] at h; simp at h
    rw [hf]
    simp

theorem CustomData.containsKey_set_self (cd : CustomData) (k v : String) :
    (cd.set k v).containsKey k = true := by
  unfold CustomData.containsKey
  rw [CustomData.kv_set]
  by_cases h : cd.containsKey k
  · rw [if_pos h]
    rw [CustomData.find?_map_set_self]
    unfold CustomData.containsKey at h
    obtain ⟨p, hp⟩ := Option.isSome_iff_exists.mp h
    rw [hp]
    rfl
  · rw [if_neg h]
    rw [List.find?_append]
    cases hf : cd.kv.find? (fun p => p.1 == k) with
    | none => simp [hf]
    | some p => simp [hf]

theorem CustomData.value_set_ne (cd : CustomData) {k k' : String} (h : k' ≠ k)
    (v : String) : (cd.set k v).value k' = cd.value k' := by
  unfold CustomData.value
  rw [CustomData.kv_set]
  by_cases hc : cd.containsKey k
  · rw [if_pos hc]
    rw [CustomData.find?_map_set_ne cd.kv h]
  · rw [if_neg hc]
    rw [List.find?_append]
    cases hf : cd.kv.find? (fun p => p.1 == k') with
    | some p => simp [hf]
    | none => simp [hf, Ne.symm h]

theorem CustomData.containsKey_set_ne (cd : CustomData) {k k' : String} (h : k' ≠ k)
    (v : String) : (cd.set k v).containsKey k' = cd.containsKey k' := by
  unfold CustomData.containsKey
  rw [CustomData.kv_set]
  by_cases hc : cd.containsKey k
  · rw [if_pos hc]
    rw [CustomData.find?_map_set_ne cd.kv h]
  · rw [if_neg hc]
    rw [List.find?_append]
    cases hf : cd.kv.find? (fun p => p.1 == k') with
    | some p => simp [hf]
    | none => simp [hf, Ne.symm h]

theorem CustomData.containsKey_iff_mem_keys (cd : CustomData) (k : String) :
    cd.containsKey k = true ↔ k ∈ cd.keys := by
  unfold CustomData.containsKey CustomData.keys
  rw [Option.isSome_iff_exists]
  constructor
  · rintro ⟨p, hp⟩
    have hm := List.mem_of_find?_eq_some hp
    have he := List.find?_some hp
    simp at he
    subst he
    exact List.mem_map_of_mem _ hm
  · intro hk
    obtain ⟨p, hp, he⟩ := List.mem_map.mp hk
    have : (cd.kv.find? (fun p => p.1 == k)).isSome := by
      rw [List.find?_isSome]
      exact ⟨p, hp, by simp [he]⟩
    rw [Option.isSome_iff_exists] at this
    exact this

/-- The icon loop never touches the custom-data store. -/
theorem iconsFold_customData (sourceMetadata : Metadata) :
    ∀ (icons : List Nat) (st : Metadata × List Change),
      (icons.foldl (iconStep sourceMetadata) st).1.customData = st.1.customData := by
  intro icons
  induction icons with
  | nil => intro st; rfl
  | cons u rest ih =>
    intro st
    rw [List.foldl_cons, ih]
    unfold iconStep
    by_cases h : st.1.hasCustomIcon u
    · simp [h]
    · simp [h, Metadata.addCustomIcon]

/-- What the removal loop does to the store, per key. -/
theorem removeFold_spec (sourceMetadata : Metadata) :
    ∀ (keys : List String) (st : CustomData × List Change),
      ((keys.foldl (removeKeyStep sourceMetadata) st).1.protectedKeys
          = st.1.protectedKeys)
      ∧ (∀ k, (k ∉ keys ∨ sourceMetadata.customData.containsKey k = true
            ∨ sourceMetadata.customData.isProtected k = true) →
          (keys.foldl (removeKeyStep sourceMetadata) st).1.value k = st.1.value k
          ∧ (keys.foldl (removeKeyStep sourceMetadata) st).1.containsKey k
              = st.1.containsKey k)
      ∧ (∀ k, k ∈ keys → sourceMetadata.customData.containsKey k = false →
          sourceMetadata.customData.isProtected k = false →
          (keys.foldl (removeKeyStep sourceMetadata) st).1.containsKey k = false) := by
  intro keys
  induction keys with
  | nil =>
    intro st
    refine ⟨rfl, fun k _ => ⟨rfl, rfl⟩, fun k hk => absurd hk (List.not_mem_nil k)⟩
  | cons k0 rest ih =>
    intro st
    rw [List.foldl_cons]
    obtain ⟨ihp, ihu, ihr⟩ := ih (removeKeyStep sourceMetadata st k0)
    have hstep1 : (removeKeyStep sourceMetadata st k0).1.protectedKeys = st.1.protectedKeys := by
      unfold removeKeyStep
      split
      · exact CustomData.protectedKeys_removeKey _ _
      · rfl
    have hkeep : ∀ k, k ≠ k0 →
        (removeKeyStep sourceMetadata st k0).1.value k = st.1.value k
        ∧ (removeKeyStep sourceMetadata st k0).1.containsKey k = st.1.containsKey k := by
      intro k hk
      unfold removeKeyStep
      split
      · exact ⟨CustomData.value_removeKey_ne _ hk, CustomData.containsKey_removeKey_ne _ hk⟩
      · exact ⟨rfl, rfl⟩
    have hnonrem : ∀ k, (sourceMetadata.customData.containsKey k = true
          ∨ sourceMetadata.customData.isProtected k = true) →
        (removeKeyStep sourceMetadata st k0).1.value k = st.1.value k
        ∧ (removeKeyStep sourceMetadata st k0).1.containsKey k = st.1.containsKey k := by
      intro k hk
      by_cases he : k = k0
      · subst he
        unfold removeKeyStep
        have hcond : (!sourceMetadata.customData.containsKey k
            && !sourceMetadata.customData.isProtected k) = false := by
          rcases hk with h | h <;> simp [h]
        rw [hcond]
        exact ⟨rfl, rfl⟩
      · exact hkeep k he
    refine ⟨hstep1 ▸ ihp, ?_, ?_⟩
    · intro k hk
      rcases hk with hk | hk | hk
      · have hk0 : k ≠ k0 := fun he => hk (he ▸ List.mem_cons_self k0 rest)
        have hrest : k ∉ rest := fun he => hk (List.mem_cons_of_mem k0 he)
        obtain ⟨hv, hc⟩ := ihu k (Or.inl hrest)
        obtain ⟨hv2, hc2⟩ := hkeep k hk0
        exact ⟨hv.trans hv2, hc.trans hc2⟩
      · obtain ⟨hv, hc⟩ := ihu k (Or.inr (Or.inl hk))
        obtain ⟨hv2, hc2⟩ := hnonrem k (Or.inl hk)
        exact ⟨hv.trans hv2, hc.trans hc2⟩
      · obtain ⟨hv, hc⟩ := ihu k (Or.inr (Or.inr hk))
        obtain ⟨hv2, hc2⟩ := hnonrem k (Or.inr hk)
        exact ⟨hv.trans hv2, hc.trans hc2⟩
    · intro k hk hc hp
      rcases List.mem_cons.mp hk with he | hmem
      · subst he
        by_cases hmem : k ∈ rest
        · exact ihr k hmem hc hp
        · obtain ⟨_, hcc⟩ := ihu k (Or.inl hmem)
          rw [hcc]
          unfold removeKeyStep
          have hcond : (!sourceMetadata.customData.containsKey k
              && !sourceMetadata.customData.isProtected k) = true := by
            simp [hc, hp]
          rw [hcond]
          simp only [if_true]
          exact CustomData.containsKey_removeKey_self _ _
      · exact ihr k hmem hc hp

/-- What the transfer loop does to the store, per key. -/
theorem setFold_spec (sourceMetadata : Metadata) :
    ∀ (keys : List String) (st : CustomData × List Change),
      ((keys.foldl (setKeyStep sourceMetadata) st).1.protectedKeys = st.1.protectedKeys)
      ∧ (∀ k, k ∈ keys → k ≠ CustomData.lastModifiedKey →
          (keys.foldl (setKeyStep sourceMetadata) st).1.value k
            = sourceMetadata.customData.value k)
      ∧ (∀ k, (k ∉ keys ∨ k = CustomData.lastModifiedKey) →
          (keys.foldl (setKeyStep sourceMetadata) st).1.value k = st.1.value k
          ∧ (keys.foldl (setKeyStep sourceMetadata) st).1.containsKey k
              = st.1.containsKey k) := by
  intro keys
  induction keys with
  | nil =>
    intro st
    exact ⟨rfl, fun k hk => absurd hk (List.not_mem_nil k), fun k _ => ⟨rfl, rfl⟩⟩
  | cons k0 rest ih =>
    intro st
    rw [List.foldl_cons]
    obtain ⟨ihp, ihs, ihu⟩ := ih (setKeyStep sourceMetadata st k0)
    have hstep1 : (setKeyStep sourceMetadata st k0).1.protectedKeys = st.1.protectedKeys := by
      unfold setKeyStep
      split
      · rfl
      · split
        · exact CustomData.protectedKeys_set _ _ _
        · rfl
    have hkeep : ∀ k, k ≠ k0 ∨ k0 = CustomData.lastModifiedKey →
        (setKeyStep sourceMetadata st k0).1.value k = st.1.value k
        ∧ (setKeyStep sourceMetadata st k0).1.containsKey k = st.1.containsKey k := by
      intro k hk
      unfold setKeyStep
      by_cases hLM : k0 = CustomData.lastModifiedKey
      · rw [if_pos (beq_iff_eq.mpr hLM)]
        exact ⟨rfl, rfl⟩
      · rw [if_neg (by simpa using hLM)]
        have hk' : k ≠ k0 := by
          rcases hk with h | h
          · exact h
          · exact absurd h hLM
        split
        · exact ⟨CustomData.value_set_ne _ hk' _, CustomData.containsKey_set_ne _ hk' _⟩
        · exact ⟨rfl, rfl⟩
    have hset : k0 ≠ CustomData.lastModifiedKey →
        (setKeyStep sourceMetadata st k0).1.value k0
          = sourceMetadata.customData.value k0 := by
      intro hLM
      unfold setKeyStep
      rw [if_neg (by simpa using hLM)]
      split
      · exact CustomData.value_set_self _ _ _
      · next hne =>
        simp only [bne_iff_ne, ne_eq, not_not] at hne
        exact hne.symm
    refine ⟨hstep1 ▸ ihp, ?_, ?_⟩
    · intro k hk hLM
      rcases List.mem_cons.mp hk with he | hmem
      · subst he
        by_cases hmem : k ∈ rest
        · exact ihs k hmem hLM
        · obtain ⟨hv, _⟩ := ihu k (Or.inl hmem)
          rw [hv]
          exact hset hLM
      · exact ihs k hmem hLM
    · intro k hk
      have hk' : k ∉ rest ∨ k = CustomData.lastModifiedKey := by
        rcases hk with h | h
        · exact Or.inl (fun hm => h (List.mem_cons_of_mem k0 hm))
        · exact Or.inr h
      obtain ⟨hv, hc⟩ := ihu k hk'
      have hstep : k ≠ k0 ∨ k0 = CustomData.lastModifiedKey := by
        rcases hk with h | h
        · exact Or.inl (fun he => h (he ▸ List.mem_cons_self k0 rest))
        · by_cases he : k = k0
          · exact Or.inr (he ▸ h)
          · exact Or.inl he
      obtain ⟨hv2, hc2⟩ := hkeep k hstep
      exact ⟨hv.trans hv2, hc.trans hc2⟩

/-- C8: `mergeMetadata` rewrites the target's custom-data store iff the
target lacks the `LastModified` key or the source's `LastModified` is
strictly newer; in that case every target key absent from the source and
not protected there is removed, every source key other than
`LastModified` ends up with the source's value, and every other key is
untouched; otherwise the store is left unchanged. -/
theorem C8_custom_data_newer_wins (sourceMetadata targetMetadata : Metadata) :
    (customDataMergeCondition sourceMetadata.customData targetMetadata.customData = false →
      (mergeMetadata sourceMetadata targetMetadata).1.customData
        = targetMetadata.customData)
    ∧ (customDataMergeCondition sourceMetadata.customData targetMetadata.customData = true →
      (∀ k, targetMetadata.customData.containsKey k = true →
        sourceMetadata.customData.containsKey k = false →
        sourceMetadata.customData.isProtected k = false →
        (mergeMetadata sourceMetadata targetMetadata).1.customData.containsKey k = false)
      ∧ (∀ k, k ≠ CustomData.lastModifiedKey →
        sourceMetadata.customData.containsKey k = true →
        (mergeMetadata sourceMetadata targetMetadata).1.customData.value k
          = sourceMetadata.customData.value k)
      ∧ (∀ k, k ≠ CustomData.lastModifiedKey →
        sourceMetadata.customData.containsKey k = false →
        (sourceMetadata.customData.isProtected k = true
          ∨ targetMetadata.customData.containsKey k = false) →
        (mergeMetadata sourceMetadata targetMetadata).1.customData.value k
            = targetMetadata.customData.value k
        ∧ (mergeMetadata sourceMetadata targetMetadata).1.customData.containsKey k
            = targetMetadata.customData.containsKey k)) := by
  unfold mergeMetadata
  rcases hfold : List.foldl (iconStep sourceMetadata) (targetMetadata, [])
      sourceMetadata.customIconsOrder with ⟨tm1, chs1⟩
  have htm1 : tm1.customData = targetMetadata.customData := by
    have h0 := iconsFold_customData sourceMetadata
      sourceMetadata.customIconsOrder (targetMetadata, [])
    rw [hfold] at h0
    exact h0
  dsimp only
  rw [htm1]
  by_cases hcond : customDataMergeCondition sourceMetadata.customData
    targetMetadata.customData
  case neg =>
    have hb : customDataMergeCondition sourceMetadata.customData
        targetMetadata.customData = false := by simpa using hcond
    rw [hb]
    constructor
    · intro _
      simp [htm1]
    · intro hcontra
      exact absurd hcontra (by simp)
  case pos =>
    rw [hcond]
    constructor
    · intro hcontra
      exact absurd hcontra (by simp)
    · intro _
      simp only [if_true]
      rcases hrem : List.foldl (removeKeyStep sourceMetadata)
          (targetMetadata.customData, chs1) targetMetadata.customData.keys with ⟨cd1, chs2⟩
      obtain ⟨hrp, hru, hrr⟩ := removeFold_spec sourceMetadata
        targetMetadata.customData.keys (targetMetadata.customData, chs1)
      rw [hrem] at hrp hru hrr
      rcases hset : List.foldl (setKeyStep sourceMetadata) (cd1, chs2)
          sourceMetadata.customData.keys with ⟨cd2, chs3⟩
      obtain ⟨hsp, hss, hsu⟩ := setFold_spec sourceMetadata
        sourceMetadata.customData.keys (cd1, chs2)
      rw [hset] at hsp hss hsu
      dsimp only at hrp hru hrr hsp hss hsu ⊢
      refine ⟨?_, ?_, ?_⟩
      · intro k htc hsc hspk
        have hmemsrc : k ∉ sourceMetadata.customData.keys := by
          intro hm
          rw [(CustomData.containsKey_iff_mem_keys _ k).mpr hm] at hsc
          cases hsc
        obtain ⟨_, hc⟩ := hsu k (Or.inl hmemsrc)
        rw [hc]
        exact hrr k ((CustomData.containsKey_iff_mem_keys _ k).mp htc) hsc hspk
      · intro k hLM hsc
        have hmemsrc : k ∈ sourceMetadata.customData.keys :=
          (CustomData.containsKey_iff_mem_keys _ k).mp hsc
        exact hss k hmemsrc hLM
      · intro k hLM hsc hor
        have hmemsrc : k ∉ sourceMetadata.customData.keys := by
          intro hm
          rw [(CustomData.containsKey_iff_mem_keys _ k).mpr hm] at hsc
          cases hsc
        obtain ⟨hv, hc⟩ := hsu k (Or.inl hmemsrc)
        have hnr : k ∉ targetMetadata.customData.keys
            ∨ sourceMetadata.customData.containsKey k = true
            ∨ sourceMetadata.customData.isProtected k = true := by
          rcases hor with h | h
          · exact Or.inr (Or.inr h)
          · refine Or.inl (fun hm => ?_)
            rw [(CustomData.containsKey_iff_mem_keys _ k).mpr hm] at h
            cases h
        obtain ⟨hv2, hc2⟩ := hru k hnr
        exact ⟨hv.trans hv2, hc.trans hc2⟩

theorem C8_custom_data_newer_wins_witness :
    (mergeMetadata
        { customData := { kv := [("LastModified", "20"), ("k1", "v1x"), ("k3", "v3")] } }
        { customData := { kv := [("LastModified", "10"), ("k1", "v1"), ("k2", "v2")] } }
      ).1.customData.containsKey "k2" = false
    ∧ (mergeMetadata
        { customData := { kv := [("LastModified", "20"), ("k1", "v1x"), ("k3", "v3")] } }
        { customData := { kv := [("LastModified", "10"), ("k1", "v1"), ("k2", "v2")] } }
      ).1.customData.value "k1" = "v1x"
    ∧ (mergeMetadata
        { customData := { kv := [("LastModified", "20"), ("k1", "v1x"), ("k3", "v3")] } }
        { customData := { kv := [("LastModified", "10"), ("k1", "v1"), ("k2", "v2")] } }
      ).1.customData.value "k3" = "v3" :=
  ⟨((C8_custom_data_newer_wins
      { customData := { kv := [("LastModified", "20"), ("k1", "v1x"), ("k3", "v3")] } }
      { customData := { kv := [("LastModified", "10"), ("k1", "v1"), ("k2", "v2")] } }).2
    (by decide)).1 "k2" (by decide) (by decide) (by decide),
   ((C8_custom_data_newer_wins
      { customData := { kv := [("LastModified", "20"), ("k1", "v1x"), ("k3", "v3")] } }
      { customData := { kv := [("LastModified", "10"), ("k1", "v1"), ("k2", "v2")] } }).2
    (by decide)).2.1 "k1" (by decide) (by decide),
   ((C8_custom_data_newer_wins
      { customData := { kv := [("LastModified", "20"), ("k1", "v1x"), ("k3", "v3")] } }
      { customData := { kv := [("LastModified", "10"), ("k1", "v1"), ("k2", "v2")] } }).2
    (by decide)).2.1 "k3" (by decide) (by decide)⟩

/-!  Tree-surgery lemmas used by the deletion-phase proofs. -/

theorem find?_filter_of_imp {α : Type} {p q : α → Bool} :
    ∀ l : List α, (∀ a, p a = true → q a = true) →
      (l.filter q).find? p = l.find? p := by
  intro l h
  induction l with
  | nil => rfl
  | cons a rest ih =>
    cases hq : q a with
    | true =>
      rw [List.filter_cons_of_pos hq]
      cases hp : p a with
      | true => rw [List.find?_cons_of_pos _ hp, List.find?_cons_of_pos _ hp]
      | false =>
        rw [List.find?_cons_of_neg _ (by simp [hp]), List.find?_cons_of_neg _ (by simp [hp])]
        exact ih
    | false =>
      rw [List.filter_cons_of_neg (by simp [hq])]
      have hp : p a = false := by
        cases hp : p a with
        | false => rfl
        | true => rw [h a hp] at hq; cases hq
      rw [List.find?_cons_of_neg _ (by simp [hp])]
      exact ih

theorem entriesRecursive_node (d : GroupData) (es : List Entry) (cs : List Group) :
    (Group.node d es cs).entriesRecursive = es ++ Group.entriesRecursiveList cs := rfl

theorem groupsRecursive_node (d : GroupData) (es : List Entry) (cs : List Group) :
    (Group.node d es cs).groupsRecursive
      = Group.node d es cs :: Group.groupsRecursiveList cs := rfl

theorem mem_groupsRecursiveList {x : Group} :
    ∀ {cs : List Group}, x ∈ Group.groupsRecursiveList cs ↔ ∃ c ∈ cs, x ∈ c.groupsRecursive := by
  intro cs
  induction cs with
  | nil => simp [Group.groupsRecursiveList]
  | cons c rest ih =>
    unfold Group.groupsRecursiveList
    rw [List.mem_append, ih]
    constructor
    · rintro (h | ⟨c', hc', hx⟩)
      · exact ⟨c, List.mem_cons_self c rest, h⟩
      · exact ⟨c', List.mem_cons_of_mem c hc', hx⟩
    · rintro ⟨c', hc', hx⟩
      rcases List.mem_cons.mp hc' with he | hm
      · exact Or.inl (he ▸ hx)
      · exact Or.inr ⟨c', hm, hx⟩

theorem self_mem_groupsRecursive (g : Group) : g ∈ g.groupsRecursive := by
  cases g with
  | node d es cs => rw [groupsRecursive_node]; exact List.mem_cons_self _ _

mutual
/-- Removing an entry filters the flattened entry list of the subtree. -/
theorem entriesRecursive_removeEntry : ∀ (g : Group) (u : Nat),
    (g.removeEntry u).entriesRecursive
      = g.entriesRecursive.filter (fun e => e.uuid != u)
  | .node d es cs, u => by
    unfold Group.removeEntry
    rw [entriesRecursive_node, entriesRecursive_node,
      entriesRecursiveList_removeEntryList cs u, List.filter_append]
theorem entriesRecursiveList_removeEntryList : ∀ (cs : List Group) (u : Nat),
    Group.entriesRecursiveList (Group.removeEntryList cs u)
      = (Group.entriesRecursiveList cs).filter (fun e => e.uuid != u)
  | [], _ => rfl
  | c :: cs, u => by
    unfold Group.removeEntryList Group.entriesRecursiveList
    rw [entriesRecursive_removeEntry c u, entriesRecursiveList_removeEntryList cs u,
      List.filter_append]
end

theorem findEntryByUuid_uuid {g : Group} {u : Nat} {e : Entry}
    (h : g.findEntryByUuid u = some e) : e.uuid = u := by
  have := List.find?_some h
  simpa using this

theorem mem_entriesRecursive_of_findEntryByUuid {g : Group} {u : Nat} {e : Entry}
    (h : g.findEntryByUuid u = some e) : e ∈ g.entriesRecursive :=
  List.mem_of_find?_eq_some h

/-- Removing a different uuid does not change a lookup. -/
theorem findEntryByUuid_removeEntry_ne (g : Group) {u v : Nat} (h : u ≠ v) :
    (g.removeEntry v).findEntryByUuid u = g.findEntryByUuid u := by
  unfold Group.findEntryByUuid
  rw [entriesRecursive_removeEntry]
  apply find?_filter_of_imp
  intro e he
  have : e.uuid = u := by simpa using he
  simp [this, h]

/-- After removing the uuid, no entry with it is found. -/
theorem findEntryByUuid_removeEntry_self (g : Group) (u : Nat) :
    (g.removeEntry u).findEntryByUuid u = none := by
  unfold Group.findEntryByUuid
  rw [entriesRecursive_removeEntry, List.find?_eq_none]
  intro e he
  have h1 := List.of_mem_filter he
  simp only [bne_iff_ne, ne_eq] at h1
  simp [h1]

/-- An absent uuid stays absent after any entry removal. -/
theorem findEntryByUuid_removeEntry_none (g : Group) {u : Nat} (v : Nat)
    (h : g.findEntryByUuid u = none) :
    (g.removeEntry v).findEntryByUuid u = none := by
  unfold Group.findEntryByUuid at h ⊢
  rw [entriesRecursive_removeEntry, List.find?_eq_none]
  intro e he
  have := List.mem_of_mem_filter he
  rw [List.find?_eq_none] at h
  exact h e this

mutual
/-- Removing a group whose every occurrence holds no entries anywhere in
its subtree leaves the flattened entry list unchanged. -/
theorem entriesRecursive_removeGroup : ∀ (g : Group) (u : Nat),
    (∀ x ∈ g.groupsRecursive, x.uuid = u → x.entriesRecursive = []) →
    (g.removeGroup u).entriesRecursive = g.entriesRecursive
  | .node d es cs, u => by
    intro h
    unfold Group.removeGroup
    rw [entriesRecursive_node, entriesRecursive_node]
    rw [entriesRecursiveList_removeGroupList cs u (fun x hx hu => by
      refine h x ?_ hu
      rw [groupsRecursive_node]
      exact List.mem_cons_of_mem _ hx)]
theorem entriesRecursiveList_removeGroupList : ∀ (cs : List Group) (u : Nat),
    (∀ x ∈ Group.groupsRecursiveList cs, x.uuid = u → x.entriesRecursive = []) →
    Group.entriesRecursiveList (Group.removeGroupList cs u)
      = Group.entriesRecursiveList cs
  | [], _ => by intro _; rfl
  | c :: cs, u => by
    intro h
    have hsub : ∀ x ∈ Group.groupsRecursiveList cs, x.uuid = u → x.entriesRecursive = [] :=
      fun x hx hu => h x (by
        unfold Group.groupsRecursiveList
        exact List.mem_append.mpr (Or.inr hx)) hu
    have hsubc : ∀ x ∈ c.groupsRecursive, x.uuid = u → x.entriesRecursive = [] :=
      fun x hx hu => h x (by
        unfold Group.groupsRecursiveList
        exact List.mem_append.mpr (Or.inl hx)) hu
    unfold Group.removeGroupList
    by_cases hc : c.uuid = u
    · rw [if_pos (beq_iff_eq.mpr hc)]
      have hce : c.entriesRecursive = [] :=
        hsubc c (self_mem_groupsRecursive c) hc
      have hr : Group.entriesRecursiveList (c :: cs) = Group.entriesRecursiveList cs := by
        show c.entriesRecursive ++ Group.entriesRecursiveList cs
          = Group.entriesRecursiveList cs
        rw [hce]
        rfl
      rw [hr, entriesRecursiveList_removeGroupList cs u hsub]
    · rw [if_neg (by simpa using hc)]
      show (c.removeGroup u).entriesRecursive
          ++ Group.entriesRecursiveList (Group.removeGroupList cs u)
        = c.entriesRecursive ++ Group.entriesRecursiveList cs
      rw [entriesRecursive_removeGroup c u hsubc,
        entriesRecursiveList_removeGroupList cs u hsub]
end

mutual
/-- Removing a group only drops uuids from the flattened uuid list. -/
theorem groupUuids_removeGroup_sublist : ∀ (g : Group) (u : Nat),
    List.Sublist ((g.removeGroup u).groupsRecursive.map Group.uuid)
      (g.groupsRecursive.map Group.uuid)
  | .node d es cs, u => by
    unfold Group.removeGroup
    rw [groupsRecursive_node, groupsRecursive_node]
    simp only [List.map_cons]
    exact List.Sublist.cons₂ _ (groupUuidsList_removeGroupList_sublist cs u)
theorem groupUuidsList_removeGroupList_sublist : ∀ (cs : List Group) (u : Nat),
    List.Sublist ((Group.groupsRecursiveList (Group.removeGroupList cs u)).map Group.uuid)
      ((Group.groupsRecursiveList cs).map Group.uuid)
  | [], _ => List.Sublist.refl _
  | c :: cs, u => by
    unfold Group.removeGroupList
    by_cases hc : c.uuid = u
    · rw [if_pos (beq_iff_eq.mpr hc)]
      refine List.Sublist.trans (groupUuidsList_removeGroupList_sublist cs u) ?_
      show List.Sublist _ ((Group.groupsRecursiveList (c :: cs)).map Group.uuid)
      have hgr : Group.groupsRecursiveList (c :: cs)
          = c.groupsRecursive ++ Group.groupsRecursiveList cs := rfl
      rw [hgr, List.map_append]
      exact List.sublist_append_right _ _
    · rw [if_neg (by simpa using hc)]
      have hl : Group.groupsRecursiveList (c.removeGroup u :: Group.removeGroupList cs u)
          = (c.removeGroup u).groupsRecursive
            ++ Group.groupsRecursiveList (Group.removeGroupList cs u) := rfl
      have hr : Group.groupsRecursiveList (c :: cs)
          = c.groupsRecursive ++ Group.groupsRecursiveList cs := rfl
      rw [hl, hr, List.map_append, List.map_append]
      exact List.Sublist.append (groupUuids_removeGroup_sublist c u)
        (groupUuidsList_removeGroupList_sublist cs u)
end

theorem findGroupByUuid_uuid {g : Group} {u : Nat} {x : Group}
    (h : g.findGroupByUuid u = some x) : x.uuid = u := by
  have := List.find?_some h
  simpa using this

theorem mem_groupsRecursive_of_findGroupByUuid {g : Group} {u : Nat} {x : Group}
    (h : g.findGroupByUuid u = some x) : x ∈ g.groupsRecursive :=
  List.mem_of_find?_eq_some h

/-- With unique group uuids, every subtree occurrence of a found uuid is
the found group itself. -/
theorem unique_group_of_nodup {g : Group} (hnodup : g.groupUuids.Nodup)
    {u : Nat} {x : Group} (hx : g.findGroupByUuid u = some x) :
    ∀ y ∈ g.groupsRecursive, y.uuid = u → y = x := by
  intro y hy hyu
  unfold Group.groupUuids at hnodup
  exact List.inj_on_of_nodup_map hnodup hy
    (mem_groupsRecursive_of_findGroupByUuid hx)
    (hyu.trans (findGroupByUuid_uuid hx).symm)

theorem dfind_dreplace_none {m : List (Nat × DeletedObject)} {k : Nat}
    (h : dfind m k = none) (d : DeletedObject) : dfind (dreplace m k d) k = none := by
  induction m with
  | nil => rfl
  | cons p rest ih =>
    unfold dreplace at *
    unfold dfind at h ⊢
    by_cases hp : p.1 = k
    · rw [List.find?_cons_of_pos _ (by simp [hp])] at h
      simp at h
    · have hb : (p.1 == k) = false := beq_eq_false_iff_ne.mpr hp
      simp only [List.map_cons, hb, if_false]
      rw [List.find?_cons_of_neg _ (by simp [hp])] at h
      rw [List.find?_cons_of_neg _ (by simp [hp])]
      exact ih h

theorem dfind_isSome_dreplace (m : List (Nat × DeletedObject)) (k : Nat)
    (d : DeletedObject) (w : Nat) :
    (dfind (dreplace m k d) w).isSome = (dfind m w).isSome := by
  by_cases hw : w = k
  · subst hw
    cases hf : dfind m w with
    | none => rw [dfind_dreplace_none hf]
    | some cur => rw [dfind_dreplace_self hf d]; rfl
  · rw [dfind_dreplace_ne hw]

theorem dfind_isSome_append (m1 m2 : List (Nat × DeletedObject)) (w : Nat)
    (h : (dfind m1 w).isSome = true) : (dfind (m1 ++ m2) w).isSome = true := by
  cases hf : dfind m1 w with
  | none => rw [hf] at h; cases h
  | some d => rw [dfind_append_some hf]; rfl

/-- The other fields of the union state are unchanged on a repeated uuid. -/
theorem unionStep_some_fields (root : Group) (st : UnionSt) (obj : DeletedObject)
    (cur : DeletedObject) (hd : dfind st.mergedDeletions obj.uuid = some cur) :
    (unionStep root st obj).entries = st.entries
    ∧ (unionStep root st obj).groupQueue = st.groupQueue
    ∧ (unionStep root st obj).deletions = st.deletions := by
  by_cases ht : cur.deletionTime > obj.deletionTime
  · refine ⟨?_, ?_, ?_⟩ <;> simp [unionStep, hd, ht]
  · refine ⟨?_, ?_, ?_⟩ <;> simp [unionStep, hd, ht]

/-- Fields after a fresh uuid that is live as an entry. -/
theorem unionStep_entry_fields (root : Group) (st : UnionSt) (obj : DeletedObject)
    (x0 : Entry) (hd : dfind st.mergedDeletions obj.uuid = none)
    (he : root.findEntryByUuid obj.uuid = some x0) :
    (unionStep root st obj).entries = st.entries ++ [x0]
    ∧ (unionStep root st obj).groupQueue = st.groupQueue
    ∧ (unionStep root st obj).deletions = st.deletions := by
  refine ⟨?_, ?_, ?_⟩ <;> simp [unionStep, hd, he]

/-- Fields after a fresh uuid that is live as a group. -/
theorem unionStep_group_fields (root : Group) (st : UnionSt) (obj : DeletedObject)
    (hd : dfind st.mergedDeletions obj.uuid = none)
    (he : root.findEntryByUuid obj.uuid = none)
    (g0 : Group) (hg : root.findGroupByUuid obj.uuid = some g0) :
    (unionStep root st obj).entries = st.entries
    ∧ (unionStep root st obj).groupQueue = st.groupQueue ++ [obj.uuid]
    ∧ (unionStep root st obj).deletions = st.deletions := by
  refine ⟨?_, ?_, ?_⟩ <;> simp [unionStep, hd, he, hg]

/-- Fields after a fresh uuid that is not live at all. -/
theorem unionStep_dead_fields (root : Group) (st : UnionSt) (obj : DeletedObject)
    (hd : dfind st.mergedDeletions obj.uuid = none)
    (he : root.findEntryByUuid obj.uuid = none)
    (hg : root.findGroupByUuid obj.uuid = none) :
    (unionStep root st obj).entries = st.entries
    ∧ (unionStep root st obj).groupQueue = st.groupQueue
    ∧ (unionStep root st obj).deletions = st.deletions ++ [obj] := by
  refine ⟨?_, ?_, ?_⟩ <;> simp [unionStep, hd, he, hg]

/-- The map only grows across a union step. -/
theorem unionStep_isSome_mono (root : Group) (st : UnionSt) (obj : DeletedObject)
    (w : Nat) (h : (dfind st.mergedDeletions w).isSome = true) :
    (dfind (unionStep root st obj).mergedDeletions w).isSome = true := by
  cases hd : dfind st.mergedDeletions obj.uuid with
  | none =>
    rw [unionStep_map_none root st obj hd]
    exact dfind_isSome_append _ _ _ h
  | some cur =>
    rw [unionStep_map_some root st obj cur hd]
    by_cases ht : cur.deletionTime > obj.deletionTime
    · rw [if_pos ht, dfind_isSome_dreplace]
      exact h
    · rw [if_neg ht]
      exact h

/-- A processed uuid is in the map after the union fold. -/
theorem unionFold_isSome_of_mem (root : Group) :
    ∀ (dels : List DeletedObject) (st : UnionSt) (u : Nat),
      ((∃ d ∈ dels, d.uuid = u) ∨ (dfind st.mergedDeletions u).isSome = true) →
      (dfind (dels.foldl (unionStep root) st).mergedDeletions u).isSome = true := by
  intro dels
  induction dels with
  | nil =>
    intro st u h
    rcases h with ⟨d, hd, _⟩ | h
    · cases hd
    · exact h
  | cons obj rest ih =>
    intro st u h
    rw [List.foldl_cons]
    apply ih
    rcases h with ⟨d, hd, hu⟩ | h
    · rcases List.mem_cons.mp hd with he | hm
      · subst he
        refine Or.inr ?_
        subst hu
        cases hd2 : dfind st.mergedDeletions d.uuid with
        | none =>
          rw [unionStep_map_none root st d hd2, dfind_append_none hd2, dfind_singleton_self]
          rfl
        | some cur =>
          apply unionStep_isSome_mono
          rw [hd2]
          rfl
      · exact Or.inl ⟨d, hm, hu⟩
    · exact Or.inr (unionStep_isSome_mono root st obj u h)

/-- Invariant of the union loop relative to one live target entry. -/
theorem unionStep_entry_inv (root : Group) (u : Nat) (e : Entry)
    (hlive : root.findEntryByUuid u = some e) (st : UnionSt) (obj : DeletedObject)
    (h1 : (dfind st.mergedDeletions u).isSome = true → e ∈ st.entries)
    (h2 : ∀ x ∈ st.entries, root.findEntryByUuid x.uuid = some x)
    (h3 : ∀ x ∈ st.entries, (dfind st.mergedDeletions x.uuid).isSome = true)
    (h4 : (st.entries.map Entry.uuid).Nodup)
    (h5 : ∀ d ∈ st.deletions, d.uuid ≠ u)
    (h6 : ∀ q ∈ st.groupQueue, q ≠ u) :
    ((dfind (unionStep root st obj).mergedDeletions u).isSome = true
        → e ∈ (unionStep root st obj).entries)
    ∧ (∀ x ∈ (unionStep root st obj).entries, root.findEntryByUuid x.uuid = some x)
    ∧ (∀ x ∈ (unionStep root st obj).entries,
        (dfind (unionStep root st obj).mergedDeletions x.uuid).isSome = true)
    ∧ ((unionStep root st obj).entries.map Entry.uuid).Nodup
    ∧ (∀ d ∈ (unionStep root st obj).deletions, d.uuid ≠ u)
    ∧ (∀ q ∈ (unionStep root st obj).groupQueue, q ≠ u) := by
  cases hd : dfind st.mergedDeletions obj.uuid with
  | some cur =>
    obtain ⟨hE, hQ, hD⟩ := unionStep_some_fields root st obj cur hd
    have hiso : ∀ w, (dfind (unionStep root st obj).mergedDeletions w).isSome
        = (dfind st.mergedDeletions w).isSome := by
      intro w
      rw [unionStep_map_some root st obj cur hd]
      by_cases ht : cur.deletionTime > obj.deletionTime
      · rw [if_pos ht, dfind_isSome_dreplace]
      · rw [if_neg ht]
    rw [hE, hQ, hD]
    refine ⟨?_, h2, ?_, h4, h5, h6⟩
    · rw [hiso]; exact h1
    · intro x hx
      rw [hiso]
      exact h3 x hx
  | none =>
    have hiso : ∀ w, w ≠ obj.uuid →
        dfind (unionStep root st obj).mergedDeletions w = dfind st.mergedDeletions w := by
      intro w hw
      rw [unionStep_map_none root st obj hd]
      cases hf : dfind st.mergedDeletions w with
      | none => rw [dfind_append_none hf, dfind_singleton_ne hw]
      | some p => rw [dfind_append_some hf]
    have hobj : (dfind (unionStep root st obj).mergedDeletions obj.uuid).isSome = true := by
      rw [unionStep_map_none root st obj hd, dfind_append_none hd, dfind_singleton_self]
      rfl
    cases he : root.findEntryByUuid obj.uuid with
    | some x0 =>
      obtain ⟨hE, hQ, hD⟩ := unionStep_entry_fields root st obj x0 hd he
      have hx0u : x0.uuid = obj.uuid := findEntryByUuid_uuid he
      rw [hE, hQ, hD]
      refine ⟨?_, ?_, ?_, ?_, h5, h6⟩
      · intro hs
        by_cases hu : u = obj.uuid
        · subst hu
          rw [hlive] at he
          cases he
          exact List.mem_append.mpr (Or.inr (List.mem_singleton_self _))
        · rw [hiso u hu] at hs
          exact List.mem_append.mpr (Or.inl (h1 hs))
      · intro x hx
        rcases List.mem_append.mp hx with hx | hx
        · exact h2 x hx
        · rw [List.mem_singleton.mp hx, hx0u]
          exact he
      · intro x hx
        rcases List.mem_append.mp hx with hx | hx
        · by_cases hw : x.uuid = obj.uuid
          · rw [hw]; exact hobj
          · rw [hiso x.uuid hw]
            exact h3 x hx
        · rw [List.mem_singleton.mp hx, hx0u]
          exact hobj
      · rw [List.map_append, List.nodup_append]
        refine ⟨h4, by simp, ?_⟩
        intro a ha hb
        simp only [List.map_cons, List.map_nil, List.mem_singleton] at hb
        obtain ⟨x, hx, hxa⟩ := List.mem_map.mp ha
        have hxu : Entry.uuid x = obj.uuid := by rw [hxa, hb, hx0u]
        have hcontra := h3 x hx
        rw [hxu, hd] at hcontra
        cases hcontra
    | none =>
      cases hg : root.findGroupByUuid obj.uuid with
      | some g0 =>
        obtain ⟨hE, hQ, hD⟩ := unionStep_group_fields root st obj hd he g0 hg
        have hneu : obj.uuid ≠ u := by
          intro hh
          rw [hh, hlive] at he
          cases he
        rw [hE, hQ, hD]
        refine ⟨?_, h2, ?_, h4, h5, ?_⟩
        · intro hs
          rw [hiso u (Ne.symm hneu)] at hs
          exact h1 hs
        · intro x hx
          by_cases hw : x.uuid = obj.uuid
          · rw [hw]; exact hobj
          · rw [hiso x.uuid hw]
            exact h3 x hx
        · intro q hq
          rcases List.mem_append.mp hq with hq | hq
          · exact h6 q hq
          · rw [List.mem_singleton.mp hq]
            exact hneu
      | none =>
        obtain ⟨hE, hQ, hD⟩ := unionStep_dead_fields root st obj hd he hg
        have hneu : obj.uuid ≠ u := by
          intro hh
          rw [hh, hlive] at he
          cases he
        rw [hE, hQ, hD]
        refine ⟨?_, h2, ?_, h4, ?_, h6⟩
        · intro hs
          rw [hiso u (Ne.symm hneu)] at hs
          exact h1 hs
        · intro x hx
          by_cases hw : x.uuid = obj.uuid
          · rw [hw]; exact hobj
          · rw [hiso x.uuid hw]
            exact h3 x hx
        · intro d hdm
          rcases List.mem_append.mp hdm with hdm | hdm
          · exact h5 d hdm
          · rw [List.mem_singleton.mp hdm]
            exact hneu

/-- The union-loop invariant carried over the whole fold. -/
theorem unionFold_entry_inv (root : Group) (u : Nat) (e : Entry)
    (hlive : root.findEntryByUuid u = some e) :
    ∀ (dels : List DeletedObject) (st : UnionSt),
      ((dfind st.mergedDeletions u).isSome = true → e ∈ st.entries) →
      (∀ x ∈ st.entries, root.findEntryByUuid x.uuid = some x) →
      (∀ x ∈ st.entries, (dfind st.mergedDeletions x.uuid).isSome = true) →
      ((st.entries.map Entry.uuid).Nodup) →
      (∀ d ∈ st.deletions, d.uuid ≠ u) →
      (∀ q ∈ st.groupQueue, q ≠ u) →
      ((dfind (dels.foldl (unionStep root) st).mergedDeletions u).isSome = true
          → e ∈ (dels.foldl (unionStep root) st).entries)
      ∧ (∀ x ∈ (dels.foldl (unionStep root) st).entries,
          root.findEntryByUuid x.uuid = some x)
      ∧ (∀ x ∈ (dels.foldl (unionStep root) st).entries,
          (dfind (dels.foldl (unionStep root) st).mergedDeletions x.uuid).isSome = true)
      ∧ (((dels.foldl (unionStep root) st).entries.map Entry.uuid).Nodup)
      ∧ (∀ d ∈ (dels.foldl (unionStep root) st).deletions, d.uuid ≠ u)
      ∧ (∀ q ∈ (dels.foldl (unionStep root) st).groupQueue, q ≠ u) := by
  intro dels
  induction dels with
  | nil =>
    intro st h1 h2 h3 h4 h5 h6
    exact ⟨h1, h2, h3, h4, h5, h6⟩
  | cons obj rest ih =>
    intro st h1 h2 h3 h4 h5 h6
    rw [List.foldl_cons]
    obtain ⟨g1, g2, g3, g4, g5, g6⟩ :=
      unionStep_entry_inv root u e hlive st obj h1 h2 h3 h4 h5 h6
    exact ih (unionStep root st obj) g1 g2 g3 g4 g5 g6

mutual
/-- Removing an entry does not change the tree of groups. -/
theorem groupsRecursive_removeEntry_uuids : ∀ (g : Group) (u : Nat),
    (g.removeEntry u).groupsRecursive.map Group.uuid
      = g.groupsRecursive.map Group.uuid
  | .node d es cs, u => by
    unfold Group.removeEntry
    rw [groupsRecursive_node, groupsRecursive_node]
    simp only [List.map_cons]
    exact congrArg₂ List.cons rfl (groupsRecursiveList_removeEntryList_uuids cs u)
theorem groupsRecursiveList_removeEntryList_uuids : ∀ (cs : List Group) (u : Nat),
    (Group.groupsRecursiveList (Group.removeEntryList cs u)).map Group.uuid
      = (Group.groupsRecursiveList cs).map Group.uuid
  | [], _ => rfl
  | c :: cs, u => by
    have hl : Group.groupsRecursiveList (Group.removeEntryList (c :: cs) u)
        = (c.removeEntry u).groupsRecursive
          ++ Group.groupsRecursiveList (Group.removeEntryList cs u) := rfl
    have hr : Group.groupsRecursiveList (c :: cs)
        = c.groupsRecursive ++ Group.groupsRecursiveList cs := rfl
    rw [hl, hr, List.map_append, List.map_append,
      groupsRecursive_removeEntry_uuids c u,
      groupsRecursiveList_removeEntryList_uuids cs u]
end

theorem groupUuids_removeEntry (g : Group) (u : Nat) :
    (g.removeEntry u).groupUuids = g.groupUuids :=
  groupsRecursive_removeEntry_uuids g u

/-- The entry pass skips an entry whose uuid is missing from the map. -/
theorem entryPassStep_skip (map : List (Nat × DeletedObject)) (st : DelSt) (x : Entry)
    (hd : dfind map x.uuid = none) : entryPassStep map st x = st := by
  simp [entryPassStep, hd]

/-- The entry pass keeps an entry modified strictly after its tombstone. -/
theorem entryPassStep_keep (map : List (Nat × DeletedObject)) (st : DelSt) (x : Entry)
    (obj : DeletedObject) (hd : dfind map x.uuid = some obj)
    (ht : x.timeInfo.lastModificationTime > obj.deletionTime) :
    entryPassStep map st x = st := by
  simp [entryPassStep, hd, ht]

/-- The entry pass erases an entry not modified after its tombstone:
the entry leaves the tree, the tombstone goes to the output log and a
`Deleted` change carrying the entry's uuid is recorded. -/
theorem entryPassStep_erase (map : List (Nat × DeletedObject)) (st : DelSt) (x : Entry)
    (obj : DeletedObject) (hd : dfind map x.uuid = some obj)
    (ht : ¬ x.timeInfo.lastModificationTime > obj.deletionTime) :
    (entryPassStep map st x).root = st.root.removeEntry x.uuid
    ∧ (entryPassStep map st x).deletions = st.deletions ++ [obj]
    ∧ ∃ c, (entryPassStep map st x).changes = st.changes ++ [c]
        ∧ c.type = .Deleted ∧ c.uuid = some x.uuid := by
  refine ⟨by simp [entryPassStep, hd, ht], by simp [entryPassStep, hd, ht], ?_⟩
  by_cases hp : (st.root.parentGroupOfEntry x.uuid).isSome
  · exact ⟨Change.ofEntry st.root .Deleted x "Deleting child",
      by simp [entryPassStep, hd, ht, hp], rfl, rfl⟩
  · exact ⟨Change.ofEntry st.root .Deleted x "Deleting orphan",
      by simp [entryPassStep, hd, ht, hp], rfl, rfl⟩

/-- Coarse effect of one entry-pass step. -/
theorem entryPassStep_effect (map : List (Nat × DeletedObject)) (st : DelSt) (x : Entry) :
    ((entryPassStep map st x).root = st.root
      ∨ (entryPassStep map st x).root = st.root.removeEntry x.uuid)
    ∧ (∀ d ∈ (entryPassStep map st x).deletions,
        d ∈ st.deletions ∨ dfind map x.uuid = some d)
    ∧ (∀ d ∈ st.deletions, d ∈ (entryPassStep map st x).deletions)
    ∧ (∀ c ∈ st.changes, c ∈ (entryPassStep map st x).changes) := by
  cases hd : dfind map x.uuid with
  | none =>
    rw [entryPassStep_skip map st x hd]
    exact ⟨Or.inl rfl, fun d hdm => Or.inl hdm, fun d hdm => hdm, fun c hc => hc⟩
  | some obj =>
    by_cases ht : x.timeInfo.lastModificationTime > obj.deletionTime
    · rw [entryPassStep_keep map st x obj hd ht]
      exact ⟨Or.inl rfl, fun d hdm => Or.inl hdm, fun d hdm => hdm, fun c hc => hc⟩
    · obtain ⟨hr, hdel, c, hch, _, _⟩ := entryPassStep_erase map st x obj hd ht
      refine ⟨Or.inr hr, ?_, ?_, ?_⟩
      · intro d hdm
        rw [hdel] at hdm
        rcases List.mem_append.mp hdm with hdm | hdm
        · exact Or.inl hdm
        · rw [List.mem_singleton.mp hdm]
          exact Or.inr rfl
      · intro d hdm
        rw [hdel]
        exact List.mem_append.mpr (Or.inl hdm)
      · intro ch hc
        rw [hch]
        exact List.mem_append.mpr (Or.inl hc)

/-- The entry pass over entries with other uuids: the lookup at `u`, and
the group skeleton, are untouched; new tombstones in the output carry the
processed entries' uuids; the log and change list only grow. -/
theorem entryPass_fold_others (map : List (Nat × DeletedObject)) (u : Nat) :
    ∀ (l : List Entry) (st : DelSt), (∀ x ∈ l, x.uuid ≠ u) →
      ((l.foldl (entryPassStep map) st).root.findEntryByUuid u
          = st.root.findEntryByUuid u)
      ∧ ((l.foldl (entryPassStep map) st).root.groupUuids = st.root.groupUuids)
      ∧ (∀ d ∈ (l.foldl (entryPassStep map) st).deletions,
          d ∈ st.deletions ∨ ∃ x ∈ l, dfind map x.uuid = some d)
      ∧ (∀ d ∈ st.deletions, d ∈ (l.foldl (entryPassStep map) st).deletions)
      ∧ (∀ c ∈ st.changes, c ∈ (l.foldl (entryPassStep map) st).changes) := by
  intro l
  induction l with
  | nil =>
    intro st _
    exact ⟨rfl, rfl, fun d hdm => Or.inl hdm, fun d hdm => hdm, fun c hc => hc⟩
  | cons x rest ih =>
    intro st hne
    rw [List.foldl_cons]
    have hxu : x.uuid ≠ u := hne x (List.mem_cons_self x rest)
    obtain ⟨hroot, hdels, hdmono, hcmono⟩ := entryPassStep_effect map st x
    obtain ⟨ih1, ih2, ih3, ih4, ih5⟩ := ih (entryPassStep map st x)
      (fun y hy => hne y (List.mem_cons_of_mem x hy))
    have hfind : (entryPassStep map st x).root.findEntryByUuid u
        = st.root.findEntryByUuid u := by
      rcases hroot with h | h
      · rw [h]
      · rw [h]
        exact findEntryByUuid_removeEntry_ne st.root (Ne.symm (Ne.symm hxu)).symm
    have hgu : (entryPassStep map st x).root.groupUuids = st.root.groupUuids := by
      rcases hroot with h | h
      · rw [h]
      · rw [h]
        exact groupUuids_removeEntry st.root x.uuid
    refine ⟨ih1.trans hfind, ih2.trans hgu, ?_, ?_, ?_⟩
    · intro d hdm
      rcases ih3 d hdm with hdm2 | ⟨y, hy, hfy⟩
      · rcases hdels d hdm2 with hdm3 | hfx
        · exact Or.inl hdm3
        · exact Or.inr ⟨x, List.mem_cons_self x rest, hfx⟩
      · exact Or.inr ⟨y, List.mem_cons_of_mem x hy, hfy⟩
    · intro d hdm
      exact ih4 d (hdmono d hdm)
    · intro c hc
      exact ih5 c (hcmono c hc)

/-!  Branch equations of the group pass. -/

theorem groupPass_zero (map : List (Nat × DeletedObject)) (queue : List Nat)
    (st : DelSt) (order : List Nat) :
    groupPass map 0 queue st order = (st, order, queue.isEmpty) := rfl

theorem groupPass_nil (map : List (Nat × DeletedObject)) (fuel : Nat)
    (st : DelSt) (order : List Nat) :
    groupPass map (fuel + 1) [] st order = (st, order, true) := rfl

theorem groupPass_lost (map : List (Nat × DeletedObject)) (fuel : Nat) (u : Nat)
    (rest : List Nat) (st : DelSt) (order : List Nat)
    (hfind : st.root.findGroupByUuid u = none) :
    groupPass map (fuel + 1) (u :: rest) st order
      = groupPass map fuel rest st (order ++ [u]) := by
  simp [groupPass, hfind]

theorem groupPass_rotate (map : List (Nat × DeletedObject)) (fuel : Nat) (u : Nat)
    (rest : List Nat) (st : DelSt) (order : List Nat) (group : Group)
    (hfind : st.root.findGroupByUuid u = some group)
    (hrot : group.children.any (fun c => rest.contains c.uuid) = true) :
    groupPass map (fuel + 1) (u :: rest) st order
      = groupPass map fuel (rest ++ [u]) st order := by
  simp only [groupPass, hfind]
  rw [if_pos hrot]

theorem groupPass_nomap (map : List (Nat × DeletedObject)) (fuel : Nat) (u : Nat)
    (rest : List Nat) (st : DelSt) (order : List Nat) (group : Group)
    (hfind : st.root.findGroupByUuid u = some group)
    (hrot : group.children.any (fun c => rest.contains c.uuid) = false)
    (hmap : dfind map u = none) :
    groupPass map (fuel + 1) (u :: rest) st order
      = groupPass map fuel rest st (order ++ [u]) := by
  simp only [groupPass, hfind, hmap]
  rw [if_neg (by rw [hrot]; exact Bool.false_ne_true)]

theorem groupPass_keep_mod (map : List (Nat × DeletedObject)) (fuel : Nat) (u : Nat)
    (rest : List Nat) (st : DelSt) (order : List Nat) (group : Group)
    (object : DeletedObject)
    (hfind : st.root.findGroupByUuid u = some group)
    (hrot : group.children.any (fun c => rest.contains c.uuid) = false)
    (hmap : dfind map u = some object)
    (hmod : group.timeInfo.lastModificationTime > object.deletionTime) :
    groupPass map (fuel + 1) (u :: rest) st order
      = groupPass map fuel rest st (order ++ [u]) := by
  simp only [groupPass, hfind, hmap]
  rw [if_neg (by rw [hrot]; exact Bool.false_ne_true), if_pos hmod]

theorem groupPass_keep_content (map : List (Nat × DeletedObject)) (fuel : Nat) (u : Nat)
    (rest : List Nat) (st : DelSt) (order : List Nat) (group : Group)
    (object : DeletedObject)
    (hfind : st.root.findGroupByUuid u = some group)
    (hrot : group.children.any (fun c => rest.contains c.uuid) = false)
    (hmap : dfind map u = some object)
    (hmod : ¬ group.timeInfo.lastModificationTime > object.deletionTime)
    (hcont : (!group.entriesRecursive.isEmpty || !group.strictDescendants.isEmpty) = true) :
    groupPass map (fuel + 1) (u :: rest) st order
      = groupPass map fuel rest st (order ++ [u]) := by
  simp only [groupPass, hfind, hmap]
  rw [if_neg (by rw [hrot]; exact Bool.false_ne_true), if_neg hmod, if_pos hcont]

theorem groupPass_erase (map : List (Nat × DeletedObject)) (fuel : Nat) (u : Nat)
    (rest : List Nat) (st : DelSt) (order : List Nat) (group : Group)
    (object : DeletedObject)
    (hfind : st.root.findGroupByUuid u = some group)
    (hrot : group.children.any (fun c => rest.contains c.uuid) = false)
    (hmap : dfind map u = some object)
    (hmod : ¬ group.timeInfo.lastModificationTime > object.deletionTime)
    (hcont : (!group.entriesRecursive.isEmpty || !group.strictDescendants.isEmpty) = false) :
    groupPass map (fuel + 1) (u :: rest) st order
      = groupPass map fuel rest
        ⟨st.root.removeGroup u, st.deletions ++ [object],
          st.changes ++ [Change.ofGroup st.root .Deleted u
            (if (st.root.parentGroupOfGroup u).isSome
              then "Deleting child" else "Deleting orphan")]⟩
        (order ++ [u]) := by
  simp only [groupPass, hfind, hmap]
  rw [if_neg (by rw [hrot]; exact Bool.false_ne_true), if_neg hmod,
    if_neg (by rw [hcont]; exact Bool.false_ne_true)]

/-- Under distinct group uuids, the group pass never touches the
flattened entry list, only appends queued tombstones to the output log
and `Deleted` changes carrying queued uuids, and only shrinks the group
uuid list. -/
theorem groupPass_spec (map : List (Nat × DeletedObject)) :
    ∀ (fuel : Nat) (queue : List Nat) (st : DelSt) (order : List Nat),
      st.root.groupUuids.Nodup →
      ((groupPass map fuel queue st order).1.root.entriesRecursive
          = st.root.entriesRecursive)
      ∧ (∀ d ∈ (groupPass map fuel queue st order).1.deletions,
          d ∈ st.deletions ∨ ∃ q ∈ queue, dfind map q = some d)
      ∧ (∀ d ∈ st.deletions, d ∈ (groupPass map fuel queue st order).1.deletions)
      ∧ (∀ c ∈ (groupPass map fuel queue st order).1.changes,
          c ∈ st.changes ∨ ∃ q ∈ queue, c.uuid = some q)
      ∧ (∀ c ∈ st.changes, c ∈ (groupPass map fuel queue st order).1.changes) := by
  intro fuel
  induction fuel with
  | zero =>
    intro queue st order _
    rw [groupPass_zero]
    exact ⟨rfl, fun d hdm => Or.inl hdm, fun d hdm => hdm,
      fun c hc => Or.inl hc, fun c hc => hc⟩
  | succ fuel ih =>
    intro queue st order hnodup
    cases queue with
    | nil =>
      rw [groupPass_nil]
      exact ⟨rfl, fun d hdm => Or.inl hdm, fun d hdm => hdm,
        fun c hc => Or.inl hc, fun c hc => hc⟩
    | cons u rest =>
      have hmemq : ∀ q, q ∈ rest → q ∈ u :: rest := fun q hq => List.mem_cons_of_mem u hq
      cases hfind : st.root.findGroupByUuid u with
      | none =>
        rw [groupPass_lost map fuel u rest st order hfind]
        obtain ⟨g1, g2, g3, g4, g5⟩ := ih rest st (order ++ [u]) hnodup
        refine ⟨g1, ?_, g3, ?_, g5⟩
        · intro d hdm
          rcases g2 d hdm with h | ⟨q, hq, hfq⟩
          · exact Or.inl h
          · exact Or.inr ⟨q, hmemq q hq, hfq⟩
        · intro c hc
          rcases g4 c hc with h | ⟨q, hq, hcq⟩
          · exact Or.inl h
          · exact Or.inr ⟨q, hmemq q hq, hcq⟩
      | some group =>
        cases hrot : group.children.any (fun c => rest.contains c.uuid) with
        | true =>
          rw [groupPass_rotate map fuel u rest st order group hfind hrot]
          obtain ⟨g1, g2, g3, g4, g5⟩ := ih (rest ++ [u]) st order hnodup
          have hmemq2 : ∀ q, q ∈ rest ++ [u] → q ∈ u :: rest := by
            intro q hq
            rcases List.mem_append.mp hq with h | h
            · exact List.mem_cons_of_mem u h
            · rw [List.mem_singleton.mp h]
              exact List.mem_cons_self u rest
          refine ⟨g1, ?_, g3, ?_, g5⟩
          · intro d hdm
            rcases g2 d hdm with h | ⟨q, hq, hfq⟩
            · exact Or.inl h
            · exact Or.inr ⟨q, hmemq2 q hq, hfq⟩
          · intro c hc
            rcases g4 c hc with h | ⟨q, hq, hcq⟩
            · exact Or.inl h
            · exact Or.inr ⟨q, hmemq2 q hq, hcq⟩
        | false =>
          cases hmap : dfind map u with
          | none =>
            rw [groupPass_nomap map fuel u rest st order group hfind hrot hmap]
            obtain ⟨g1, g2, g3, g4, g5⟩ := ih rest st (order ++ [u]) hnodup
            refine ⟨g1, ?_, g3, ?_, g5⟩
            · intro d hdm
              rcases g2 d hdm with h | ⟨q, hq, hfq⟩
              · exact Or.inl h
              · exact Or.inr ⟨q, hmemq q hq, hfq⟩
            · intro c hc
              rcases g4 c hc with h | ⟨q, hq, hcq⟩
              · exact Or.inl h
              · exact Or.inr ⟨q, hmemq q hq, hcq⟩
          | some object =>
            by_cases hmod : group.timeInfo.lastModificationTime > object.deletionTime
            · rw [groupPass_keep_mod map fuel u rest st order group object hfind hrot
                hmap hmod]
              obtain ⟨g1, g2, g3, g4, g5⟩ := ih rest st (order ++ [u]) hnodup
              refine ⟨g1, ?_, g3, ?_, g5⟩
              · intro d hdm
                rcases g2 d hdm with h | ⟨q, hq, hfq⟩
                · exact Or.inl h
                · exact Or.inr ⟨q, hmemq q hq, hfq⟩
              · intro c hc
                rcases g4 c hc with h | ⟨q, hq, hcq⟩
                · exact Or.inl h
                · exact Or.inr ⟨q, hmemq q hq, hcq⟩
            · cases hcont : (!group.entriesRecursive.isEmpty
                  || !group.strictDescendants.isEmpty) with
              | true =>
                rw [groupPass_keep_content map fuel u rest st order group object hfind
                  hrot hmap hmod hcont]
                obtain ⟨g1, g2, g3, g4, g5⟩ := ih rest st (order ++ [u]) hnodup
                refine ⟨g1, ?_, g3, ?_, g5⟩
                · intro d hdm
                  rcases g2 d hdm with h | ⟨q, hq, hfq⟩
                  · exact Or.inl h
                  · exact Or.inr ⟨q, hmemq q hq, hfq⟩
                · intro c hc
                  rcases g4 c hc with h | ⟨q, hq, hcq⟩
                  · exact Or.inl h
                  · exact Or.inr ⟨q, hmemq q hq, hcq⟩
              | false =>
                rw [groupPass_erase map fuel u rest st order group object hfind hrot
                  hmap hmod hcont]
                have hempty : group.entriesRecursive = [] := by
                  have h1 : group.entriesRecursive.isEmpty = true := by
                    cases h2 : group.entriesRecursive.isEmpty with
                    | true => rfl
                    | false =>
                      rw [h2] at hcont
                      simp at hcont
                  exact List.isEmpty_iff.mp h1
                have her : (st.root.removeGroup u).entriesRecursive
                    = st.root.entriesRecursive := by
                  apply entriesRecursive_removeGroup
                  intro x hx hxu
                  rw [unique_group_of_nodup hnodup hfind x hx hxu]
                  exact hempty
                have hnodup2 : (st.root.removeGroup u).groupUuids.Nodup :=
                  List.Nodup.sublist (groupUuids_removeGroup_sublist st.root u) hnodup
                obtain ⟨g1, g2, g3, g4, g5⟩ := ih rest
                  ⟨st.root.removeGroup u, st.deletions ++ [object],
                    st.changes ++ [Change.ofGroup st.root .Deleted u
                      (if (st.root.parentGroupOfGroup u).isSome
                        then "Deleting child" else "Deleting orphan")]⟩
                  (order ++ [u]) hnodup2
                refine ⟨g1.trans her, ?_, ?_, ?_, ?_⟩
                · intro d hdm
                  rcases g2 d hdm with h | ⟨q, hq, hfq⟩
                  · rcases List.mem_append.mp h with h2 | h2
                    · exact Or.inl h2
                    · rw [List.mem_singleton.mp h2]
                      exact Or.inr ⟨u, List.mem_cons_self u rest, hmap⟩
                  · exact Or.inr ⟨q, hmemq q hq, hfq⟩
                · intro d hdm
                  exact g3 d (List.mem_append.mpr (Or.inl hdm))
                · intro c hc
                  rcases g4 c hc with h | ⟨q, hq, hcq⟩
                  · rcases List.mem_append.mp h with h2 | h2
                    · exact Or.inl h2
                    · rw [List.mem_singleton.mp h2]
                      exact Or.inr ⟨u, List.mem_cons_self u rest, rfl⟩
                  · exact Or.inr ⟨q, hmemq q hq, hcq⟩
                · intro c hc
                  exact g5 c (List.mem_append.mpr (Or.inl hc))

/-- Core of the delete-vs-edit argument over the two erasure passes:
given the union-loop invariants for a live entry with a union tombstone,
the entry either survives with no tombstone of its uuid in the output log
(edited strictly after the delete) or is erased with its tombstone logged
and a `Deleted` change recorded. -/
theorem delete_vs_edit_core (root : Group) (F : UnionSt) (u : Nat) (e : Entry)
    (dm : DeletedObject)
    (hnodup : root.groupUuids.Nodup)
    (hlive : root.findEntryByUuid u = some e)
    (hwf : ∀ w d, dfind F.mergedDeletions w = some d → d.uuid = w)
    (hdm : dfind F.mergedDeletions u = some dm)
    (hU1 : (dfind F.mergedDeletions u).isSome = true → e ∈ F.entries)
    (hU4 : (F.entries.map Entry.uuid).Nodup)
    (hU5 : ∀ d ∈ F.deletions, d.uuid ≠ u)
    (hU6 : ∀ q ∈ F.groupQueue, q ≠ u) :
    (e.timeInfo.lastModificationTime > dm.deletionTime →
      (groupPass F.mergedDeletions (groupPassFuel F.groupQueue.length) F.groupQueue
          (F.entries.foldl (entryPassStep F.mergedDeletions)
            ⟨root, F.deletions, []⟩) []).1.root.findEntryByUuid u = some e
      ∧ ∀ d ∈ (groupPass F.mergedDeletions (groupPassFuel F.groupQueue.length)
          F.groupQueue (F.entries.foldl (entryPassStep F.mergedDeletions)
            ⟨root, F.deletions, []⟩) []).1.deletions, d.uuid ≠ u)
    ∧ (¬ e.timeInfo.lastModificationTime > dm.deletionTime →
      (groupPass F.mergedDeletions (groupPassFuel F.groupQueue.length) F.groupQueue
          (F.entries.foldl (entryPassStep F.mergedDeletions)
            ⟨root, F.deletions, []⟩) []).1.root.findEntryByUuid u = none
      ∧ dm ∈ (groupPass F.mergedDeletions (groupPassFuel F.groupQueue.length)
          F.groupQueue (F.entries.foldl (entryPassStep F.mergedDeletions)
            ⟨root, F.deletions, []⟩) []).1.deletions
      ∧ ∃ c ∈ (groupPass F.mergedDeletions (groupPassFuel F.groupQueue.length)
          F.groupQueue (F.entries.foldl (entryPassStep F.mergedDeletions)
            ⟨root, F.deletions, []⟩) []).1.changes,
          c.type = ChangeType.Deleted ∧ c.uuid = some u) := by
  have heuu : e.uuid = u := findEntryByUuid_uuid hlive
  have hde : dfind F.mergedDeletions e.uuid = some dm := by rw [heuu]; exact hdm
  have hmemE : e ∈ F.entries := hU1 (by rw [hdm]; rfl)
  obtain ⟨l1, l2, hsplit⟩ := List.append_of_mem hmemE
  have hnd := hU4
  rw [hsplit, List.map_append, List.map_cons] at hnd
  have hne : e.uuid ∉ l1.map Entry.uuid ++ l2.map Entry.uuid :=
    (List.nodup_cons.mp (List.nodup_middle.mp hnd)).1
  have hl1 : ∀ x ∈ l1, x.uuid ≠ u := by
    intro x hx hxu
    exact hne (List.mem_append.mpr (Or.inl (List.mem_map.mpr ⟨x, hx, hxu.trans heuu.symm⟩)))
  have hl2 : ∀ x ∈ l2, x.uuid ≠ u := by
    intro x hx hxu
    exact hne (List.mem_append.mpr (Or.inr (List.mem_map.mpr ⟨x, hx, hxu.trans heuu.symm⟩)))
  have hfold : F.entries.foldl (entryPassStep F.mergedDeletions)
      (⟨root, F.deletions, []⟩ : DelSt)
      = l2.foldl (entryPassStep F.mergedDeletions)
          (entryPassStep F.mergedDeletions
            (l1.foldl (entryPassStep F.mergedDeletions) ⟨root, F.deletions, []⟩) e) := by
    rw [hsplit, List.foldl_append, List.foldl_cons]
  rw [hfold]
  obtain ⟨hA1, hA2, hA3, hA4, hA5⟩ := entryPass_fold_others F.mergedDeletions u l1
    ⟨root, F.deletions, []⟩ hl1
  have hAdel : ∀ d ∈ (l1.foldl (entryPassStep F.mergedDeletions)
      (⟨root, F.deletions, []⟩ : DelSt)).deletions, d.uuid ≠ u := by
    intro d hdmem
    rcases hA3 d hdmem with h | ⟨x, hx, hfx⟩
    · exact hU5 d h
    · rw [hwf x.uuid d hfx]
      exact hl1 x hx
  refine ⟨fun hgt => ?_, fun hng => ?_⟩
  · have hBA : entryPassStep F.mergedDeletions
        (l1.foldl (entryPassStep F.mergedDeletions) ⟨root, F.deletions, []⟩) e
        = l1.foldl (entryPassStep F.mergedDeletions) ⟨root, F.deletions, []⟩ :=
      entryPassStep_keep F.mergedDeletions _ e dm hde hgt
    rw [hBA]
    obtain ⟨hB1, hB2, hB3, hB4, hB5⟩ := entryPass_fold_others F.mergedDeletions u l2
      (l1.foldl (entryPassStep F.mergedDeletions) ⟨root, F.deletions, []⟩) hl2
    have hnodup1 : (l2.foldl (entryPassStep F.mergedDeletions)
        (l1.foldl (entryPassStep F.mergedDeletions)
          (⟨root, F.deletions, []⟩ : DelSt))).root.groupUuids.Nodup := by
      rw [hB2, hA2]
      exact hnodup
    obtain ⟨g1, g2, g3, g4, g5⟩ := groupPass_spec F.mergedDeletions
      (groupPassFuel F.groupQueue.length) F.groupQueue
      (l2.foldl (entryPassStep F.mergedDeletions)
        (l1.foldl (entryPassStep F.mergedDeletions) ⟨root, F.deletions, []⟩)) [] hnodup1
    refine ⟨?_, ?_⟩
    · have hgeq : (groupPass F.mergedDeletions (groupPassFuel F.groupQueue.length)
          F.groupQueue (l2.foldl (entryPassStep F.mergedDeletions)
            (l1.foldl (entryPassStep F.mergedDeletions) ⟨root, F.deletions, []⟩))
          []).1.root.findEntryByUuid u
          = (l2.foldl (entryPassStep F.mergedDeletions)
            (l1.foldl (entryPassStep F.mergedDeletions)
              (⟨root, F.deletions, []⟩ : DelSt))).root.findEntryByUuid u := by
        unfold Group.findEntryByUuid
        rw [g1]
      exact hgeq.trans (hB1.trans (hA1.trans hlive))
    · intro d hdmem
      rcases g2 d hdmem with h | ⟨q, hq, hfq⟩
      · rcases hB3 d h with h2 | ⟨x, hx, hfx⟩
        · exact hAdel d h2
        · rw [hwf x.uuid d hfx]
          exact hl2 x hx
      · rw [hwf q d hfq]
        exact hU6 q hq
  · obtain ⟨hBr, hBd, c, hBc, hcty, hcu⟩ := entryPassStep_erase F.mergedDeletions
      (l1.foldl (entryPassStep F.mergedDeletions) ⟨root, F.deletions, []⟩) e dm hde hng
    obtain ⟨hB1, hB2, hB3, hB4, hB5⟩ := entryPass_fold_others F.mergedDeletions u l2
      (entryPassStep F.mergedDeletions
        (l1.foldl (entryPassStep F.mergedDeletions) ⟨root, F.deletions, []⟩) e) hl2
    have hfindB : (entryPassStep F.mergedDeletions
        (l1.foldl (entryPassStep F.mergedDeletions)
          (⟨root, F.deletions, []⟩ : DelSt)) e).root.findEntryByUuid u = none := by
      rw [hBr, heuu]
      exact findEntryByUuid_removeEntry_self _ u
    have hnodup1 : (l2.foldl (entryPassStep F.mergedDeletions)
        (entryPassStep F.mergedDeletions
          (l1.foldl (entryPassStep F.mergedDeletions)
            (⟨root, F.deletions, []⟩ : DelSt)) e)).root.groupUuids.Nodup := by
      rw [hB2, hBr, groupUuids_removeEntry, hA2]
      exact hnodup
    obtain ⟨g1, g2, g3, g4, g5⟩ := groupPass_spec F.mergedDeletions
      (groupPassFuel F.groupQueue.length) F.groupQueue
      (l2.foldl (entryPassStep F.mergedDeletions)
        (entryPassStep F.mergedDeletions
          (l1.foldl (entryPassStep F.mergedDeletions) ⟨root, F.deletions, []⟩) e)) []
      hnodup1
    refine ⟨?_, ?_, ?_⟩
    · have hgeq : (groupPass F.mergedDeletions (groupPassFuel F.groupQueue.length)
          F.groupQueue (l2.foldl (entryPassStep F.mergedDeletions)
            (entryPassStep F.mergedDeletions
              (l1.foldl (entryPassStep F.mergedDeletions) ⟨root, F.deletions, []⟩) e))
          []).1.root.findEntryByUuid u
          = (l2.foldl (entryPassStep F.mergedDeletions)
            (entryPassStep F.mergedDeletions
              (l1.foldl (entryPassStep F.mergedDeletions)
                (⟨root, F.deletions, []⟩ : DelSt)) e)).root.findEntryByUuid u := by
        unfold Group.findEntryByUuid
        rw [g1]
      exact hgeq.trans (hB1.trans hfindB)
    · apply g3
      apply hB4
      rw [hBd]
      exact List.mem_append.mpr (Or.inr (List.mem_singleton.mpr rfl))
    · refine ⟨c, g5 c (hB5 c ?_), hcty, ?_⟩
      · rw [hBc]
        exact List.mem_append.mpr (Or.inr (List.mem_singleton.mpr rfl))
      · rw [hcu, heuu]

/-- C5: delete-vs-edit rule for entries — in `mergeDeletions` under the
Synchronize mode, for a target entry live in the tree whose uuid has a
tombstone in the union map, the entry stays live and no tombstone of its
uuid reaches the resulting deletion log when the entry was modified
strictly after the tombstone's deletion time; otherwise the entry is
erased from the tree, the tombstone appears in the resulting deletion log
and a `Deleted` change carrying the entry's uuid is emitted
(Merger.cpp:544-559). -/
theorem C5_delete_vs_edit (forced : MergeMode) (sourceDb targetDb : Database)
    (u : Nat) (e : Entry) (dm : DeletedObject)
    (hmode : effectiveMode forced targetDb.root = MergeMode.Synchronize)
    (hnodup : targetDb.root.groupUuids.Nodup)
    (hlive : targetDb.root.findEntryByUuid u = some e)
    (hdm : dfind (unionState targetDb.root
        (targetDb.deletions ++ sourceDb.deletions)).mergedDeletions u = some dm) :
    (e.timeInfo.lastModificationTime > dm.deletionTime →
      (mergeDeletions forced sourceDb targetDb).1.root.findEntryByUuid u = some e
      ∧ ∀ d ∈ (mergeDeletions forced sourceDb targetDb).1.deletions, d.uuid ≠ u)
    ∧ (¬ e.timeInfo.lastModificationTime > dm.deletionTime →
      (mergeDeletions forced sourceDb targetDb).1.root.findEntryByUuid u = none
      ∧ dm ∈ (mergeDeletions forced sourceDb targetDb).1.deletions
      ∧ ∃ c ∈ (mergeDeletions forced sourceDb targetDb).2,
          c.type = ChangeType.Deleted ∧ c.uuid = some u) := by
  have hmd : mergeDeletions forced sourceDb targetDb
      = mergeDeletionsSync sourceDb targetDb := by
    unfold mergeDeletions
    rw [hmode]
    exact if_neg (by decide)
  have hFe : (targetDb.deletions ++ sourceDb.deletions).foldl
      (unionStep targetDb.root) ({} : UnionSt)
      = unionState targetDb.root (targetDb.deletions ++ sourceDb.deletions) := rfl
  have hinv := unionFold_entry_inv targetDb.root u e hlive
    (targetDb.deletions ++ sourceDb.deletions) {}
    (fun h => by simp [dfind] at h)
    (fun x hx => absurd hx (List.not_mem_nil x))
    (fun x hx => absurd hx (List.not_mem_nil x))
    List.nodup_nil
    (fun d hd => absurd hd (List.not_mem_nil d))
    (fun q hq => absurd hq (List.not_mem_nil q))
  rw [hFe] at hinv
  obtain ⟨hU1, _, _, hU4, hU5, hU6⟩ := hinv
  have hwf : ∀ w d, dfind (unionState targetDb.root
      (targetDb.deletions ++ sourceDb.deletions)).mergedDeletions w = some d →
      d.uuid = w := by
    intro w d h
    rw [← hFe] at h
    exact (unionFold_map_min targetDb.root (targetDb.deletions ++ sourceDb.deletions)
      [] {} (fun a b hb => by simp [dfind] at hb)
      (fun a ha d' hd' => absurd hd' (List.not_mem_nil d')) w d h).2.1
  have hcore := delete_vs_edit_core targetDb.root
    (unionState targetDb.root (targetDb.deletions ++ sourceDb.deletions)) u e dm
    hnodup hlive hwf hdm hU1 hU4 hU5 hU6
  rw [hmd]
  refine ⟨hcore.1, fun hng => ?_⟩
  obtain ⟨h1, h2, c, hc, hcty, hcu⟩ := hcore.2 hng
  exact ⟨h1, h2, c, List.mem_append.mpr (Or.inl hc), hcty, hcu⟩

/-- Witness: scenario S6 — the live entry modified at second 5 against a
tombstone at second 10; the entry is erased, the tombstone logged and a
`Deleted` change emitted. -/
theorem C5_delete_vs_edit_witness :
    ¬ (5000 > 10000)
    ∧ (mergeDeletions MergeMode.Default c5Source c5Target).1.root.findEntryByUuid 1
        = none
    ∧ (⟨1, 10000⟩ : DeletedObject)
        ∈ (mergeDeletions MergeMode.Default c5Source c5Target).1.deletions
    ∧ ∃ c ∈ (mergeDeletions MergeMode.Default c5Source c5Target).2,
        c.type = ChangeType.Deleted ∧ c.uuid = some 1 := by
  have h := (C5_delete_vs_edit MergeMode.Default c5Source c5Target 1 c5Entry
    ⟨1, 10000⟩ (by decide) (by decide) (by decide) (by decide)).2 (by decide)
  exact ⟨by decide, h.1, h.2.1, h.2.2⟩

/-- Every nonempty list has an element minimising a measure. -/
theorem exists_min_on (m : Nat → Nat) :
    ∀ (l : List Nat), l ≠ [] → ∃ a ∈ l, ∀ b ∈ l, m a ≤ m b := by
  intro l
  induction l with
  | nil => intro h; exact absurd rfl h
  | cons a rest ih =>
    intro _
    by_cases hr : rest = []
    · subst hr
      refine ⟨a, List.mem_cons_self a [], ?_⟩
      intro b hb
      rcases List.mem_cons.mp hb with h | h
      · rw [h]
      · cases h
    · obtain ⟨c, hc, hmin⟩ := ih hr
      by_cases hab : m a ≤ m c
      · refine ⟨a, List.mem_cons_self a rest, ?_⟩
        intro b hb
        rcases List.mem_cons.mp hb with h | h
        · rw [h]
        · exact le_trans hab (hmin b h)
      · refine ⟨c, List.mem_cons_of_mem a hc, ?_⟩
        intro b hb
        rcases List.mem_cons.mp hb with h | h
        · rw [h]; exact le_of_not_le hab
        · exact hmin b h

mutual
/-- Children of subtree members are subtree members. -/
theorem child_mem_groupsRecursive : ∀ (g : Group) (x c : Group),
    x ∈ g.groupsRecursive → c ∈ x.children → c ∈ g.groupsRecursive
  | .node d es cs, x, c => by
    intro hx hc
    rw [groupsRecursive_node] at hx ⊢
    rcases List.mem_cons.mp hx with he | hm
    · refine List.mem_cons_of_mem _ ?_
      rw [mem_groupsRecursiveList]
      have hc' : c ∈ cs := by rw [he] at hc; exact hc
      exact ⟨c, hc', self_mem_groupsRecursive c⟩
    · exact List.mem_cons_of_mem _ (child_mem_groupsRecursiveList cs x c hm hc)
theorem child_mem_groupsRecursiveList : ∀ (cs : List Group) (x c : Group),
    x ∈ Group.groupsRecursiveList cs → c ∈ x.children →
    c ∈ Group.groupsRecursiveList cs
  | [], x, c => by
    intro hx _
    rw [mem_groupsRecursiveList] at hx
    obtain ⟨y, hy, _⟩ := hx
    cases hy
  | y :: cs, x, c => by
    intro hx hc
    have hsplit : Group.groupsRecursiveList (y :: cs)
        = y.groupsRecursive ++ Group.groupsRecursiveList cs := rfl
    rw [hsplit] at hx ⊢
    rcases List.mem_append.mp hx with h | h
    · exact List.mem_append.mpr (Or.inl (child_mem_groupsRecursive y x c h hc))
    · exact List.mem_append.mpr (Or.inr (child_mem_groupsRecursiveList cs x c h hc))
end

/-- Some queued uuid is ready: either unfound in the tree, or its found
group has no queued child besides itself.  The queued uuid whose found
subtree is smallest works, since a queued child would name a strictly
smaller found subtree. -/
theorem exists_ready_uuid (root : Group) (queue : List Nat)
    (hq : queue ≠ []) (hnodup : root.groupUuids.Nodup) :
    ∃ j u, queue.get? j = some u ∧
      ∀ g, root.findGroupByUuid u = some g →
        ∀ c ∈ g.children, c.uuid ∈ queue → c.uuid = u := by
  have hidx : ∀ u ∈ queue, ∃ j, queue.get? j = some u := by
    intro u hu
    obtain ⟨⟨n, hn⟩, hget⟩ := List.mem_iff_get.mp hu
    exact ⟨n, by rw [List.get?_eq_get hn, hget]⟩
  by_cases hS : queue.filter (fun q => (root.findGroupByUuid q).isSome) = []
  · obtain ⟨a, rest, hqe⟩ : ∃ a rest, queue = a :: rest := by
      cases queue with
      | nil => exact absurd rfl hq
      | cons a rest => exact ⟨a, rest, rfl⟩
    refine ⟨0, a, by rw [hqe]; rfl, ?_⟩
    intro g hg
    exfalso
    have ha : a ∈ queue.filter (fun q => (root.findGroupByUuid q).isSome) :=
      List.mem_filter.mpr ⟨by rw [hqe]; exact List.mem_cons_self a rest,
        by rw [hg]; rfl⟩
    rw [hS] at ha
    cases ha
  · obtain ⟨u, hu, hmin⟩ := exists_min_on
      (fun q => match root.findGroupByUuid q with | some g => sizeOf g | none => 0)
      (queue.filter (fun q => (root.findGroupByUuid q).isSome)) hS
    have huq : u ∈ queue := List.mem_of_mem_filter hu
    obtain ⟨j, hj⟩ := hidx u huq
    refine ⟨j, u, hj, ?_⟩
    intro g hg c hc hcq
    by_contra hne
    have hgmem : g ∈ root.groupsRecursive := mem_groupsRecursive_of_findGroupByUuid hg
    have hcmem : c ∈ root.groupsRecursive := child_mem_groupsRecursive root g c hgmem hc
    have hfsome : (root.findGroupByUuid c.uuid).isSome = true := by
      unfold Group.findGroupByUuid
      rw [List.find?_isSome]
      exact ⟨c, hcmem, beq_self_eq_true c.uuid⟩
    obtain ⟨c', hc'⟩ := Option.isSome_iff_exists.mp hfsome
    have hcc : c = c' := unique_group_of_nodup hnodup hc' c hcmem rfl
    have hlt : sizeOf c < sizeOf g := Group.sizeOf_children_lt g c hc
    have hcS : c.uuid ∈ queue.filter (fun q => (root.findGroupByUuid q).isSome) :=
      List.mem_filter.mpr ⟨hcq, by rw [hc']; rfl⟩
    have hmm := hmin c.uuid hcS
    simp only [hg, hc'] at hmm
    rw [← hcc] at hmm
    exact absurd hmm (not_le.mpr hlt)

/-- A ready head is processed in one step: each of the five processing
branches appends it to the order, drops it from the queue and leaves a
tree with no new group uuids. -/
theorem groupPass_process_head (map : List (Nat × DeletedObject))
    (u : Nat) (rest : List Nat) (st : DelSt)
    (hnt : st.root.groupUuids.Nodup) (hurest : u ∉ rest)
    (hready : ∀ g, st.root.findGroupByUuid u = some g →
      ∀ c ∈ g.children, c.uuid ∈ u :: rest → c.uuid = u) :
    ∃ st', st'.root.groupUuids.Nodup
      ∧ ∀ (f : Nat) (order : List Nat),
          groupPass map (f + 1) (u :: rest) st order
            = groupPass map f rest st' (order ++ [u]) := by
  cases hfind : st.root.findGroupByUuid u with
  | none =>
    exact ⟨st, hnt, fun f order => groupPass_lost map f u rest st order hfind⟩
  | some g =>
    have hrotF : (g.children.any fun c => rest.contains c.uuid) = false := by
      rw [List.any_eq_false]
      intro c hc
      by_cases hcm : c.uuid ∈ rest
      · exfalso
        have := hready g hfind c hc (List.mem_cons_of_mem u hcm)
        rw [this] at hcm
        exact hurest hcm
      · simpa using hcm
    cases hmap : dfind map u with
    | none =>
      exact ⟨st, hnt, fun f order =>
        groupPass_nomap map f u rest st order g hfind hrotF hmap⟩
    | some obj =>
      by_cases hmod : g.timeInfo.lastModificationTime > obj.deletionTime
      · exact ⟨st, hnt, fun f order =>
          groupPass_keep_mod map f u rest st order g obj hfind hrotF hmap hmod⟩
      · cases hcont : (!g.entriesRecursive.isEmpty || !g.strictDescendants.isEmpty) with
        | true =>
          exact ⟨st, hnt, fun f order =>
            groupPass_keep_content map f u rest st order g obj hfind hrotF hmap hmod
              hcont⟩
        | false =>
          exact ⟨⟨st.root.removeGroup u, st.deletions ++ [obj],
            st.changes ++ [Change.ofGroup st.root .Deleted u
              (if (st.root.parentGroupOfGroup u).isSome
                then "Deleting child" else "Deleting orphan")]⟩,
            List.Nodup.sublist (groupUuids_removeGroup_sublist st.root u) hnt,
            fun f order =>
              groupPass_erase map f u rest st order g obj hfind hrotF hmap hmod hcont⟩

/-- From a queue with a ready uuid at position `j`, the pass processes
some element within `j + 1` steps: rotations walk the queue until a ready
head is reached, which is then removed and appended to the order. -/
theorem groupPass_process_step (map : List (Nat × DeletedObject)) :
    ∀ (j : Nat) (queue : List Nat) (st : DelSt),
      queue.Nodup → st.root.groupUuids.Nodup →
      (∃ w, queue.get? j = some w ∧
        ∀ g, st.root.findGroupByUuid w = some g →
          ∀ c ∈ g.children, c.uuid ∈ queue → c.uuid = w) →
      ∃ i u rest' st', i ≤ j ∧ u ∈ queue
        ∧ List.Perm rest' (queue.erase u) ∧ rest'.Nodup
        ∧ st'.root.groupUuids.Nodup
        ∧ ∀ (f : Nat) (order : List Nat),
            groupPass map (f + (i + 1)) queue st order
              = groupPass map f rest' st' (order ++ [u]) := by
  intro j
  induction j with
  | zero =>
    intro queue st hnq hnt hex
    obtain ⟨w, hw, hready⟩ := hex
    obtain ⟨rest, hqe⟩ : ∃ rest, queue = w :: rest := by
      cases queue with
      | nil => cases hw
      | cons a rest =>
        have ha : a = w := by injection hw
        exact ⟨rest, by rw [ha]⟩
    subst hqe
    obtain ⟨st', hnt', heq⟩ := groupPass_process_head map w rest st hnt
      (List.nodup_cons.mp hnq).1 hready
    refine ⟨0, w, rest, st', Nat.le_refl 0, List.mem_cons_self w rest, ?_,
      (List.nodup_cons.mp hnq).2, hnt', heq⟩
    rw [List.erase_cons_head]
  | succ j' ih =>
    intro queue st hnq hnt hex
    obtain ⟨w, hw, hready⟩ := hex
    obtain ⟨u0, rest, hqe⟩ : ∃ u0 rest, queue = u0 :: rest := by
      cases queue with
      | nil => cases hw
      | cons a rest => exact ⟨a, rest, rfl⟩
    subst hqe
    by_cases hrdy : ∀ g, st.root.findGroupByUuid u0 = some g →
        ∀ c ∈ g.children, c.uuid ∈ u0 :: rest → c.uuid = u0
    · obtain ⟨st', hnt', heq⟩ := groupPass_process_head map u0 rest st hnt
        (List.nodup_cons.mp hnq).1 hrdy
      refine ⟨0, u0, rest, st', Nat.zero_le _, List.mem_cons_self u0 rest, ?_,
        (List.nodup_cons.mp hnq).2, hnt', heq⟩
      rw [List.erase_cons_head]
    · push_neg at hrdy
      obtain ⟨g, hfind, c, hc, hcq, hcne⟩ := hrdy
      have hcrest : c.uuid ∈ rest := by
        rcases List.mem_cons.mp hcq with h | h
        · exact absurd h hcne
        · exact h
      have hrotT : (g.children.any fun x => rest.contains x.uuid) = true :=
        List.any_eq_true.mpr ⟨c, hc, by simpa using hcrest⟩
      have hwrest : rest.get? j' = some w := hw
      have hj'lt : j' < rest.length := by
        obtain ⟨h, _⟩ := List.get?_eq_some.mp hwrest
        exact h
      have hwq' : (rest ++ [u0]).get? j' = some w := by
        rw [List.get?_append hj'lt]
        exact hwrest
      have hperm : List.Perm (u0 :: rest) (rest ++ [u0]) :=
        (List.perm_append_singleton u0 rest).symm
      have hnq' : (rest ++ [u0]).Nodup := hperm.nodup_iff.mp hnq
      have hready' : ∀ g', st.root.findGroupByUuid w = some g' →
          ∀ c' ∈ g'.children, c'.uuid ∈ rest ++ [u0] → c'.uuid = w := by
        intro g' hg' c' hc' hcm
        exact hready g' hg' c' hc' (hperm.mem_iff.mpr hcm)
      obtain ⟨i, u, rest', st', hile, humem, hpr, hnr, hnt', heq⟩ :=
        ih (rest ++ [u0]) st hnq' hnt ⟨w, hwq', hready'⟩
      refine ⟨i + 1, u, rest', st', Nat.succ_le_succ hile,
        hperm.mem_iff.mpr humem, hpr.trans (hperm.erase u).symm, hnr, hnt', ?_⟩
      intro f order
      calc groupPass map (f + (i + 1 + 1)) (u0 :: rest) st order
          = groupPass map (f + (i + 1)) (rest ++ [u0]) st order :=
            groupPass_rotate map (f + (i + 1)) u0 rest st order g hfind hrotT
        _ = groupPass map f rest' st' (order ++ [u]) := heq f order

/-- With `n (n + 1)` fuel for a queue of `n` distinct uuids over a tree
with distinct group uuids, the group pass exhausts the queue and its
processing order is a permutation of the queue. -/
theorem groupPass_terminates_aux (map : List (Nat × DeletedObject)) :
    ∀ (n : Nat) (queue : List Nat) (st : DelSt) (order : List Nat) (f : Nat),
      queue.length = n → queue.Nodup → st.root.groupUuids.Nodup →
      n * (n + 1) ≤ f →
      (groupPass map f queue st order).2.2 = true
      ∧ ∃ p, (groupPass map f queue st order).2.1 = order ++ p
          ∧ List.Perm p queue := by
  intro n
  induction n with
  | zero =>
    intro queue st order f hlen _ _ _
    have hq : queue = [] := List.length_eq_zero.mp hlen
    subst hq
    cases f with
    | zero => exact ⟨rfl, [], (List.append_nil order).symm, List.Perm.refl []⟩
    | succ f => exact ⟨rfl, [], (List.append_nil order).symm, List.Perm.refl []⟩
  | succ n ih =>
    intro queue st order f hlen hnq hnt hf
    have hqn : queue ≠ [] := by
      intro h
      rw [h] at hlen
      cases hlen
    obtain ⟨j, w, hw, hready⟩ := exists_ready_uuid st.root queue hqn hnt
    obtain ⟨i, u, rest', st', hile, humem, hpr, hnr, hnt', heq⟩ :=
      groupPass_process_step map j queue st hnq hnt ⟨w, hw, hready⟩
    have hjlt : j < queue.length := by
      obtain ⟨h, _⟩ := List.get?_eq_some.mp hw
      exact h
    have hrlen : rest'.length = n := by
      rw [hpr.length_eq, List.length_erase_of_mem humem, hlen]
      omega
    have hin : i ≤ n := by omega
    have hstep : n + 1 ≤ (n + 1) * (n + 1 + 1) :=
      Nat.le_mul_of_pos_right (n + 1) (by omega)
    have hfge : i + 1 ≤ f := le_trans (le_trans (by omega) hstep) hf
    have h1 : n * (n + 1) + (i + 1) ≤ (n + 1) * (n + 1 + 1) := by nlinarith
    have hf0 : n * (n + 1) ≤ f - (i + 1) := Nat.le_sub_of_add_le (le_trans h1 hf)
    have hfsplit : f = (f - (i + 1)) + (i + 1) := by omega
    rw [hfsplit, heq (f - (i + 1)) order]
    obtain ⟨hc, p', hp', hperm'⟩ := ih rest' st' (order ++ [u]) (f - (i + 1))
      hrlen hnr hnt' hf0
    refine ⟨hc, u :: p', ?_, ?_⟩
    · rw [hp', List.append_assoc]
      rfl
    · exact ((hperm'.trans hpr).cons u).trans (List.perm_cons_erase humem).symm

/-- C10 counterexample: in the chain R(10) → g(11) → m(12) → d(13) with
tombstones for 11 and 13 only, the deletion-phase queue is `[11, 13]` and
group 13 is a strict descendant of group 11, yet the pass processes 11
first — the claimed ordering \x22every group after all of its queued
descendants\x22 fails for descendants reachable only through an unqueued
intermediate group, because the re-enqueue guard inspects direct children
only (Merger.cpp:565-571). -/
theorem C10_counterexample :
    (unionState chainTarget.root
        (chainTarget.deletions ++ chainSource.deletions)).groupQueue = [11, 13]
    ∧ ((chainTarget.root.findGroupByUuid 11).map
        (fun g => g.strictDescendants.any (fun x => x.uuid == 13))) = some true
    ∧ (groupPass (unionState chainTarget.root
          (chainTarget.deletions ++ chainSource.deletions)).mergedDeletions
        (groupPassFuel 2) [11, 13]
        ⟨chainTarget.root,
          (unionState chainTarget.root
            (chainTarget.deletions ++ chainSource.deletions)).deletions, []⟩
        []).2 = ([11, 13], true) := by decide

/-- C10 (amended): the leaf-first group pass of `mergeDeletions`
(Merger.cpp:561-584) terminates — with the modelled fuel `(n + 1)²` the
queue of `n` distinct candidate uuids over a tree with distinct group
uuids is always exhausted — and every queued group is processed exactly
once: the processing order is a permutation of the queue.  The head is
re-enqueued only while one of its direct children is still queued, so the
leaf-first ordering extends to queued direct children but not to all
queued strict descendants. -/
theorem C10_group_pass_terminates (map : List (Nat × DeletedObject))
    (queue : List Nat) (st : DelSt)
    (hq : queue.Nodup) (ht : st.root.groupUuids.Nodup) :
    (groupPass map (groupPassFuel queue.length) queue st []).2.2 = true
    ∧ ∃ p, (groupPass map (groupPassFuel queue.length) queue st []).2.1 = p
        ∧ List.Perm p queue := by
  have hb : queue.length * (queue.length + 1) ≤ groupPassFuel queue.length := by
    unfold groupPassFuel
    exact Nat.mul_le_mul (Nat.le_succ _) (Nat.le_refl _)
  obtain ⟨hc, p, hp, hperm⟩ := groupPass_terminates_aux map queue.length queue st []
    (groupPassFuel queue.length) rfl hq ht hb
  exact ⟨hc, p, by rw [hp]; rfl, hperm⟩

/-- Witness: the chain scenario run concretely — the pass over the queue
`[11, 13]` completes and processes each queued group exactly once. -/
theorem C10_group_pass_terminates_witness :
    ([11, 13] : List Nat).Nodup
    ∧ (⟨chainTarget.root, [], []⟩ : DelSt).root.groupUuids.Nodup
    ∧ ((groupPass [] (groupPassFuel ([11, 13] : List Nat).length) [11, 13]
          ⟨chainTarget.root, [], []⟩ []).2.2 = true
      ∧ ∃ p, (groupPass [] (groupPassFuel ([11, 13] : List Nat).length) [11, 13]
          ⟨chainTarget.root, [], []⟩ []).2.1 = p ∧ List.Perm p [11, 13]) :=
  ⟨by decide, by decide,
    C10_group_pass_terminates [] [11, 13] ⟨chainTarget.root, [], []⟩
      (by decide) (by decide)⟩

/-- C1: merging `idemSource` into `idemTarget` leaves the target in its
initial state (the tombstoned entry is first re-created by the tree phase
and then erased again by the deletion phase), so an immediately repeated
merge emits the same non-empty change list instead of the empty one the
specification's idempotence property promises. -/
theorem C1_merge_not_idempotent :
    (Merger.merge .Default idemSource (Merger.merge .Default idemSource idemTarget).1).2
      = (Merger.merge .Default idemSource idemTarget).2
    ∧ (Merger.merge .Default idemSource idemTarget).2 ≠ [] := by
  decide

end KPXC
